import Mathlib

/-!
Verification development for the MazeGame repository.

This file gives a shallow embedding, in Lean 4, of the simulation core of the
repository: the tile-grid data structure (`TileMap` in
`src/lib/engine/TileMap.ts`), the collision system
(`src/lib/engine/Collision.ts`), the entity model (`src/lib/engine/Entity.ts`),
the game engine's update / win-lose / restart logic
(`src/lib/engine/GameEngine.ts`) and the maze generator
(`MazeGenerator.generate` in `src/lib/engine/TileMap.ts`).

Modelling conventions:
- JavaScript numbers holding pixel positions, sizes and velocities are modelled
  as rationals (`ℚ`); tile indices and grid dimensions are modelled as `Int`
  (they are produced by `Math.floor` and may be negative).
- JavaScript 2D tile arrays are modelled as total functions `Int → Int → Tile`;
  every read and write in the source goes through the bounds-checked
  `getTile` / `setTile`, which the model reproduces, so out-of-range entries of
  the total function are never observable.
- The untyped `properties: Record<string, any>` bags are omitted: no modelled
  operation reads or writes them.
- `Math.random()` in the maze generator is modelled by an explicit choice
  stream `choice : ℕ → ℕ`; the k-th carve picks neighbour index
  `choice k % neighbors.length`, which ranges over exactly the indices the
  source can pick, so quantifying over all `choice` covers every possible run.
-/

/-- Tile kinds, from `enum TileType` in `src/lib/engine/types.ts`
(EMPTY = 0, WALL = 1, START = 2, END = 3, PATH = 4). -/
inductive TileType where
  | EMPTY
  | WALL
  | START
  | END
  | PATH
deriving DecidableEq

/-- One grid cell, from `interface Tile` in `src/lib/engine/TileMap.ts`
(the untyped `properties` bag is omitted). -/
structure Tile where
  id : Int
  type : TileType
  solid : Bool
  spriteId : Option String
deriving DecidableEq

/-- The all-wall tile written by the maze generator's initial fill. -/
def wallTile : Tile := ⟨1, TileType.WALL, true, none⟩

/-- The start tile written at (1,1) by the maze generator. -/
def startTile : Tile := ⟨2, TileType.START, false, none⟩

/-- The end tile written at the selected end cell by the maze generator. -/
def endTile : Tile := ⟨3, TileType.END, false, none⟩

/-- The path tile written for carved cells and carved walls. -/
def pathTile : Tile := ⟨4, TileType.PATH, false, none⟩

/-- The all-empty tile used by `TileMap.createLayer`. -/
def emptyTile : Tile := ⟨0, TileType.EMPTY, false, none⟩

/-- One layer of the grid, from `interface TileLayer`: the `tiles: Tile[][]`
array is modelled as a total function, read as `tiles y x` mirroring the
source's `tiles[y][x]`. -/
structure TileLayer where
  id : String
  tiles : Int → Int → Tile
  visible : Bool

/-- A default layer, used only as the `getD` fallback for list indexing that
the bounds checks make unreachable. -/
def dummyLayer : TileLayer := ⟨"", fun _ _ => emptyTile, true⟩

/-- The multi-layer tile grid, from `class TileMap`. -/
structure TileMap where
  width : Int
  height : Int
  tileSize : ℚ
  layers : List TileLayer

/-- The `TileMap` constructor: it stores its three arguments verbatim and
starts with no layers; the source performs no validation of any kind. -/
def mkTileMap (width height : Int) (tileSize : ℚ) : TileMap :=
  ⟨width, height, tileSize, []⟩

/-- `TileMap.createLayer(id)`: appends a fresh all-empty layer (the source
builds a `height × width` array of `emptyTile`s; as a total function that is
the constant function) and returns it together with the updated map. There is
no duplicate-id check in the source. -/
def TileMap.createLayer (tm : TileMap) (id : String) : TileMap × TileLayer :=
  let layer : TileLayer := ⟨id, fun _ _ => emptyTile, true⟩
  ({ tm with layers := tm.layers ++ [layer] }, layer)

/-- `TileMap.getTile(layerIndex, x, y)`: returns `none` (null) when the layer
index or the coordinates are out of range, otherwise the stored tile. -/
def TileMap.getTile (tm : TileMap) (layerIndex x y : Int) : Option Tile :=
  if layerIndex < 0 ∨ (tm.layers.length : Int) ≤ layerIndex ∨
     x < 0 ∨ tm.width ≤ x ∨ y < 0 ∨ tm.height ≤ y then
    none
  else
    some ((tm.layers.getD layerIndex.toNat dummyLayer).tiles y x)

/-- `TileMap.setTile(layerIndex, x, y, tile)`: a no-op when out of range,
otherwise overwrites the single entry `tiles[y][x]` of the addressed layer. -/
def TileMap.setTile (tm : TileMap) (layerIndex x y : Int) (tile : Tile) : TileMap :=
  if layerIndex < 0 ∨ (tm.layers.length : Int) ≤ layerIndex ∨
     x < 0 ∨ tm.width ≤ x ∨ y < 0 ∨ tm.height ≤ y then
    tm
  else
    let L := tm.layers.getD layerIndex.toNat dummyLayer
    { tm with
      layers := tm.layers.set layerIndex.toNat
        { L with tiles := fun y' x' => if y' = y ∧ x' = x then tile else L.tiles y' x' } }

theorem list_getD_set_same {α : Type} :
    ∀ (l : List α) (n : ℕ) (a d : α), n < l.length → (l.set n a).getD n d = a := by
  intro l
  induction l with
  | nil => intro n a d h; simp at h
  | cons x xs ih =>
    intro n a d h
    cases n with
    | zero => simp [List.set, List.getD]
    | succ m =>
      simp only [List.set, List.getD, List.get?] at *
      exact ih m a d (by simpa using h)

theorem list_getD_set_ne {α : Type} :
    ∀ (l : List α) (n m : ℕ) (a d : α), n ≠ m → (l.set n a).getD m d = l.getD m d := by
  intro l
  induction l with
  | nil => intro n m a d _; simp [List.set]
  | cons x xs ih =>
    intro n m a d hnm
    cases n with
    | zero =>
      cases m with
      | zero => exact absurd rfl hnm
      | succ k => simp [List.set, List.getD]
    | succ n' =>
      cases m with
      | zero => simp [List.set, List.getD]
      | succ k =>
        simp only [List.set, List.getD, List.get?]
        exact ih n' k a d (fun h => hnm (by rw [h]))

theorem setTile_width (tm : TileMap) (li x y : Int) (t : Tile) :
    (tm.setTile li x y t).width = tm.width := by
  unfold TileMap.setTile
  split <;> rfl

theorem setTile_height (tm : TileMap) (li x y : Int) (t : Tile) :
    (tm.setTile li x y t).height = tm.height := by
  unfold TileMap.setTile
  split <;> rfl

theorem setTile_tileSize (tm : TileMap) (li x y : Int) (t : Tile) :
    (tm.setTile li x y t).tileSize = tm.tileSize := by
  unfold TileMap.setTile
  split <;> rfl

theorem setTile_layers_length (tm : TileMap) (li x y : Int) (t : Tile) :
    (tm.setTile li x y t).layers.length = tm.layers.length := by
  unfold TileMap.setTile
  split
  · rfl
  · simp

/-- Reading back the cell just written by an in-range `setTile`. -/
theorem getTile_setTile_same (tm : TileMap) (li x y : Int) (t : Tile)
    (hli : 0 ≤ li) (hli2 : li < (tm.layers.length : Int))
    (hx : 0 ≤ x) (hx2 : x < tm.width) (hy : 0 ≤ y) (hy2 : y < tm.height) :
    (tm.setTile li x y t).getTile li x y = some t := by
  have hcond : ¬(li < 0 ∨ (tm.layers.length : Int) ≤ li ∨ x < 0 ∨ tm.width ≤ x ∨
      y < 0 ∨ tm.height ≤ y) := by push_neg; exact ⟨hli, hli2, hx, hx2, hy, hy2⟩
  unfold TileMap.setTile
  rw [if_neg hcond]
  unfold TileMap.getTile
  simp only [List.length_set]
  rw [if_neg hcond]
  have hlen : li.toNat < tm.layers.length := by omega
  simp only [list_getD_set_same _ _ _ _ hlen]
  simp

/-- Reading any other cell of the same layer after an in-range `setTile`. -/
theorem getTile_setTile_ne (tm : TileMap) (li x y : Int) (t : Tile) (x' y' : Int)
    (hne : ¬(x' = x ∧ y' = y)) :
    (tm.setTile li x y t).getTile li x' y' = tm.getTile li x' y' := by
  unfold TileMap.setTile
  split
  · rfl
  · rename_i hin
    push_neg at hin
    unfold TileMap.getTile
    simp only
    by_cases hbad : li < 0 ∨ (tm.layers.length : Int) ≤ li ∨ x' < 0 ∨ tm.width ≤ x' ∨
        y' < 0 ∨ tm.height ≤ y'
    · rw [if_pos (by simpa using hbad), if_pos hbad]
    · rw [if_neg (by simpa using hbad), if_neg hbad]
      have hlen : li.toNat < tm.layers.length := by omega
      simp only [list_getD_set_same _ _ _ _ hlen]
      have : ¬(y' = y ∧ x' = x) := fun ⟨h1, h2⟩ => hne ⟨h2, h1⟩
      simp [this]

/-- An out-of-range `setTile` is a no-op. -/
theorem setTile_out_of_range (tm : TileMap) (li x y : Int) (t : Tile)
    (h : li < 0 ∨ (tm.layers.length : Int) ≤ li ∨ x < 0 ∨ tm.width ≤ x ∨
         y < 0 ∨ tm.height ≤ y) :
    tm.setTile li x y t = tm := by
  unfold TileMap.setTile
  rw [if_pos h]

/-- `getTile` on an out-of-range address returns `none`. -/
theorem getTile_out_of_range (tm : TileMap) (li x y : Int)
    (h : li < 0 ∨ (tm.layers.length : Int) ≤ li ∨ x < 0 ∨ tm.width ≤ x ∨
         y < 0 ∨ tm.height ≤ y) :
    tm.getTile li x y = none := by
  unfold TileMap.getTile
  rw [if_pos h]

/-!
Entity model, from `src/lib/engine/Entity.ts`. The source has `BaseEntity`
plus a `Player` subclass that adds `health`, `score` and `speed`; the model
uses a single record with an `isPlayer` discriminator (the source
distinguishes the player by `instanceof Player`). The `sprite` field and the
untyped `properties` bag are omitted: no modelled operation reads them.
-/

/-- Movement intents, from `enum Direction` in `types.ts`. -/
inductive Direction where
  | UP
  | RIGHT
  | DOWN
  | LEFT
  | NONE
deriving DecidableEq

/-- An axis-aligned game object, fields from `BaseEntity` / `Player`. -/
structure Entity where
  id : String
  x : ℚ
  y : ℚ
  width : ℚ
  height : ℚ
  vx : ℚ
  vy : ℚ
  solid : Bool
  active : Bool
  tags : List String
  health : ℤ
  score : ℤ
  speed : ℚ
  isPlayer : Bool
deriving DecidableEq

/-- A default entity, used only as the `getD` fallback for list indexing that
the loop bounds make unreachable. -/
def dfltEntity : Entity :=
  ⟨"", 0, 0, 0, 0, 0, 0, true, true, [], 100, 0, 150, false⟩

/-- `Player.move(direction)`: reset velocity to zero, then set the component
for the given direction to ±speed. -/
def Entity.move (e : Entity) (d : Direction) : Entity :=
  let e0 := { e with vx := 0, vy := 0 }
  match d with
  | Direction.UP => { e0 with vy := -e.speed }
  | Direction.RIGHT => { e0 with vx := e.speed }
  | Direction.DOWN => { e0 with vy := e.speed }
  | Direction.LEFT => { e0 with vx := -e.speed }
  | Direction.NONE => e0

/-- `BaseEntity.update(deltaTime)`: integrate position by
`velocity * (deltaTime / 1000)` (deltaTime is in milliseconds). -/
def Entity.integrate (e : Entity) (deltaTime : ℚ) : Entity :=
  { e with x := e.x + e.vx * (deltaTime / 1000),
           y := e.y + e.vy * (deltaTime / 1000) }

/-- `Player.onCollision(other)` / `BaseEntity.onCollision`: the player loses
10 health on contact with an `enemy` tag and gains 10 score on contact with a
`collectible` tag; non-player entities do nothing. -/
def Entity.onCollisionWith (self other : Entity) : Entity :=
  if self.isPlayer then
    if other.tags.contains "enemy" then { self with health := self.health - 10 }
    else if other.tags.contains "collectible" then { self with score := self.score + 10 }
    else self
  else self

theorem onCollisionWith_x (self other : Entity) :
    (self.onCollisionWith other).x = self.x := by
  unfold Entity.onCollisionWith
  split <;> [skip; rfl]
  split <;> [rfl; skip]
  split <;> rfl

theorem onCollisionWith_y (self other : Entity) :
    (self.onCollisionWith other).y = self.y := by
  unfold Entity.onCollisionWith
  split <;> [skip; rfl]
  split <;> [rfl; skip]
  split <;> rfl

theorem onCollisionWith_vx (self other : Entity) :
    (self.onCollisionWith other).vx = self.vx := by
  unfold Entity.onCollisionWith
  split <;> [skip; rfl]
  split <;> [rfl; skip]
  split <;> rfl

theorem onCollisionWith_vy (self other : Entity) :
    (self.onCollisionWith other).vy = self.vy := by
  unfold Entity.onCollisionWith
  split <;> [skip; rfl]
  split <;> [rfl; skip]
  split <;> rfl

/-!
Collision system, from `src/lib/engine/Collision.ts`.
-/

namespace CollisionSystem

/-- `checkCollision(entity1, entity2)`: false when either is non-solid,
otherwise the standard strict AABB overlap test. -/
def checkCollision (e1 e2 : Entity) : Bool :=
  if !e1.solid || !e2.solid then false
  else
    decide (e1.x < e2.x + e2.width) && decide (e1.x + e1.width > e2.x) &&
    decide (e1.y < e2.y + e2.height) && decide (e1.y + e1.height > e2.y)

/-- `checkTileCollision(entity, tileMap)`: computes the inclusive tile-index
range spanned by the entity box (`floor(edge / tileSize)`, using `edge - 1`
for the far edges) and collects every solid tile in that range, across all
layers, in layer-major then row-major then column-major order. Returns the
`collided` flag together with the list of hits. -/
def checkTileCollision (e : Entity) (tm : TileMap) :
    Bool × List (Int × Int × Tile) :=
  if !e.solid then (false, [])
  else
    let ts := tm.tileSize
    let startX : Int := ⌊e.x / ts⌋
    let startY : Int := ⌊e.y / ts⌋
    let endX : Int := ⌊(e.x + e.width - 1) / ts⌋
    let endY : Int := ⌊(e.y + e.height - 1) / ts⌋
    (List.range tm.layers.length).foldl (fun acc li =>
      (intRange startY endY).foldl (fun acc y =>
        (intRange startX endX).foldl (fun acc x =>
          match tm.getTile (li : Int) x y with
          | some t => if t.solid then (true, acc.2 ++ [(x, y, t)]) else acc
          | none => acc) acc) acc) (false, [])
where
  /-- The inclusive integer range `[a, b]` of a JS `for (i = a; i <= b; i++)`
  loop, empty when `b < a`. -/
  intRange (a b : Int) : List Int :=
    (List.range (b + 1 - a).toNat).map (fun (k : ℕ) => a + (k : Int))

/-- `resolveCollision(entity1, entity2)`: no-op unless overlapping; otherwise
computes the overlap depth on each axis and pushes `entity1` out along the
axis of strictly smaller X overlap (`overlapX < overlapY`; ties go to the
vertical branch), zeroing that velocity component, then fires both collision
callbacks (`entity1.onCollision(entity2)` first, then
`entity2.onCollision(entity1)` with the already-updated entity1). Returns the
updated pair. -/
def resolveCollision (e1 e2 : Entity) : Entity × Entity :=
  if !(checkCollision e1 e2) then (e1, e2)
  else
    let overlapX := min (e1.x + e1.width - e2.x) (e2.x + e2.width - e1.x)
    let overlapY := min (e1.y + e1.height - e2.y) (e2.y + e2.height - e1.y)
    let e1' :=
      if overlapX < overlapY then
        let ep := if e1.x < e2.x then { e1 with x := e2.x - e1.width }
                  else { e1 with x := e2.x + e2.width }
        { ep with vx := 0 }
      else
        let ep := if e1.y < e2.y then { e1 with y := e2.y - e1.height }
                  else { e1 with y := e2.y + e2.height }
        { ep with vy := 0 }
    let a := e1'.onCollisionWith e2
    let b := e2.onCollisionWith a
    (a, b)

/-- `resolveTileCollision(entity, tileMap)`: no-op when `checkTileCollision`
reports no hit; otherwise, for each hit tile in list order, recompute the
per-axis overlap against that tile's world rectangle and push the entity out
along the axis of strictly smaller X overlap (ties to the vertical branch),
zeroing the matching velocity component. The per-tile resolution does not
re-check that the (possibly already moved) entity still overlaps the tile. -/
def resolveTileCollision (e : Entity) (tm : TileMap) : Entity :=
  let result := checkTileCollision e tm
  if !result.1 then e
  else
    result.2.foldl (fun e c =>
      let tileX : ℚ := (c.1 : ℚ) * tm.tileSize
      let tileY : ℚ := (c.2.1 : ℚ) * tm.tileSize
      let overlapX := min (e.x + e.width - tileX) (tileX + tm.tileSize - e.x)
      let overlapY := min (e.y + e.height - tileY) (tileY + tm.tileSize - e.y)
      if overlapX < overlapY then
        let ep := if e.x < tileX then { e with x := tileX - e.width }
                  else { e with x := tileX + tm.tileSize }
        { ep with vx := 0 }
      else
        let ep := if e.y < tileY then { e with y := tileY - e.height }
                  else { e with y := tileY + tm.tileSize }
        { ep with vy := 0 }) e

end CollisionSystem

/-!
Game engine, from `src/lib/engine/GameEngine.ts`. The rendering, canvas and
sprite-loading members are external collaborators and are not modelled. The
input system is modelled by passing each physics step the `Direction` it reads
and the boolean result of `isKeyPressed('space')`.
-/

/-- Game-level state, from `interface GameState` in `types.ts`. -/
structure GameState where
  running : Bool
  paused : Bool
  score : ℤ
  level : ℤ
  gameOver : Bool
  won : Bool
deriving DecidableEq

/-- The initial / restart `GameState` literal used by `GameEngine.restart`. -/
def restartGameState : GameState := ⟨true, false, 0, 1, false, false⟩

/-- The mutable engine state that one physics step touches: the tile map, the
entity list and the game state. The source's `player` field is an object
reference into the entity list; it is modelled as an index so that aliasing is
preserved. -/
structure EngineState where
  tileMap : Option TileMap
  entities : List Entity
  player : Option ℕ
  state : GameState

namespace GameEngine

/-- Dereference the engine's player pointer. -/
def getPlayer (s : EngineState) : Option Entity :=
  s.player.bind (fun i => s.entities.get? i)

/-- `GameEngine.restart()`: reset the game state, reset the player's health
and score, and move the player to a Start tile found by the scan
`for y { for x { if (tile.type === 2) { set position; break } } }` — the
`break` leaves only the inner loop, so each row containing a Start tile
re-assigns the position of its first Start tile, and the last such row wins.
The maze and the other entities are untouched. -/
def restart (s : EngineState) : EngineState :=
  match s.player with
  | none => { s with state := restartGameState }
  | some i =>
    match s.entities.get? i with
    | none => { s with state := restartGameState }
    | some p =>
      let p1 := { p with health := 100, score := 0 }
      let p2 :=
        match s.tileMap with
        | none => p1
        | some tm =>
          (List.range tm.height.toNat).foldl (fun q y =>
            match (List.range tm.width.toNat).find? (fun x =>
                match tm.getTile 0 (x : Int) (y : Int) with
                | some t => decide (t.type = TileType.START)
                | none => false) with
            | some x => { q with x := (x : ℚ) * tm.tileSize, y := (y : ℚ) * tm.tileSize }
            | none => q) p1
      { s with state := restartGameState, entities := s.entities.set i p2 }

/-- `GameEngine.checkGameState()`: if the player's occupying tile (floor of
its top-left corner over `tileSize`, layer 0) is an End tile (`type === 3`),
set `gameOver := true, won := true`; then — unconditionally, there is no
`else` — if the player's health is ≤ 0, set `gameOver := true, won := false`;
finally, if `gameOver` and space was just pressed, restart. Returns without
change when there is no player. -/
def checkGameState (s : EngineState) (spacePressed : Bool) : EngineState :=
  match getPlayer s with
  | none => s
  | some p =>
    let s1 :=
      match s.tileMap with
      | none => s
      | some tm =>
        let playerTileX : Int := ⌊p.x / tm.tileSize⌋
        let playerTileY : Int := ⌊p.y / tm.tileSize⌋
        match tm.getTile 0 playerTileX playerTileY with
        | some t =>
          if t.type = TileType.END then
            { s with state := { s.state with gameOver := true, won := true } }
          else s
        | none => s
    let s2 :=
      if p.health ≤ 0 then
        { s1 with state := { s1.state with gameOver := true, won := false } }
      else s1
    if s2.state.gameOver && spacePressed then restart s2 else s2

/-- The entity-pair collision loop of `GameEngine.update`: for `i < j`, when
both entities are active and solid and overlap, resolve the pair and write
both back. The source reads the objects by reference, so the inner iteration
always sees the latest values; the model re-reads the list on every inner
step to match. -/
def entityPairLoop (es : List Entity) : List Entity :=
  (List.range es.length).foldl (fun es1 i =>
    let e1 := es1.getD i dfltEntity
    if !e1.active || !e1.solid then es1
    else
      (List.range es.length).foldl (fun es2 j =>
        if i < j then
          let a := es2.getD i dfltEntity
          let b := es2.getD j dfltEntity
          if !b.active || !b.solid then es2
          else if CollisionSystem.checkCollision a b then
            let r := CollisionSystem.resolveCollision a b
            (es2.set i r.1).set j r.2
          else es2
        else es2) es1) es

/-- One fixed-timestep physics step, `GameEngine.update(deltaTime)`: (1) set
the player's velocity from the current `Direction`; (2) integrate every
active entity; (3) resolve every active solid entity against the tile map;
(4) resolve entity-entity collisions pairwise; (5) evaluate win/lose (and a
possible space-triggered restart). -/
def update (s : EngineState) (deltaTime : ℚ) (dir : Direction) (spacePressed : Bool) :
    EngineState :=
  let s1 :=
    match s.player with
    | some i =>
      match s.entities.get? i with
      | some p => { s with entities := s.entities.set i (p.move dir) }
      | none => s
    | none => s
  let s2 : EngineState := { s1 with entities := s1.entities.map (fun e =>
      if e.active then e.integrate deltaTime else e) }
  let s3 :=
    match s2.tileMap with
    | some tm => { s2 with entities := s2.entities.map (fun (e : Entity) =>
        if e.active && e.solid then CollisionSystem.resolveTileCollision e tm else e) }
    | none => s2
  let s4 := { s3 with entities := entityPairLoop s3.entities }
  checkGameState s4 spacePressed

/-- Run a sequence of physics steps, one input per step, with the fixed
`deltaTime` the game loop always passes (`frameTime = 1000 / fps`). -/
def runSteps (s : EngineState) (deltaTime : ℚ)
    (inputs : List (Direction × Bool)) : EngineState :=
  inputs.foldl (fun s inp => update s deltaTime inp.1 inp.2) s

/-- The accumulator side of `GameEngine.gameLoop`: each frame callback runs
`while (accumulator >= frameTime) { update(frameTime); ... }`, i.e. some batch
of whole physics steps. `batches` records how many steps each frame ran; the
steps consume the input sequence in order across frames. -/
def runBatched (s : EngineState) (deltaTime : ℚ)
    (inputs : List (Direction × Bool)) : List ℕ → EngineState
  | [] => s
  | n :: bs => runBatched (runSteps s deltaTime (inputs.take n)) deltaTime
      (inputs.drop n) bs

end GameEngine

/-!
Maze generator, from `class MazeGenerator` in `src/lib/engine/TileMap.ts`.
The JS stack (`push` / `pop` / read `stack[stack.length - 1]` at the end) is
modelled by a Lean list whose head is the top. The unbounded `while` loop is
modelled with explicit fuel; `maze_generation_terminates` below proves the
fuel used by `generate` always suffices, so the model computes exactly the
state in which the source's loop stops.
-/

namespace MazeGenerator

/-- The `MazeGenerator` class: the constructor stores `width` and `height`
verbatim, with no validation. -/
structure Gen where
  width : Int
  height : Int

/-- The state of the carving loop: the tile map being carved, the `visited`
2D boolean array (as a total function, `visited x y` for the source's
`visited[y][x]`), the cell stack, and the number of random choices consumed
so far (one per carve iteration). -/
structure CarveState where
  map : TileMap
  visited : Int → Int → Bool
  stack : List (Int × Int)
  k : ℕ

/-- The four direction offsets, in source order: up, right, down, left. -/
def directions : List (Int × Int) := [(0, -2), (2, 0), (0, 2), (-2, 0)]

/-- The unvisited step-2 neighbours of `c` that lie strictly inside the
border (`nx > 0 && nx < width - 1 && ny > 0 && ny < height - 1`), collected
in direction order. -/
def neighbors (w h : Int) (visited : Int → Int → Bool) (c : Int × Int) :
    List (Int × Int) :=
  directions.filterMap (fun d =>
    let nx := c.1 + d.1
    let ny := c.2 + d.2
    if 0 < nx ∧ nx < w - 1 ∧ 0 < ny ∧ ny < h - 1 ∧ visited nx ny = false then
      some (nx, ny)
    else none)

/-- The neighbour picked by the choice stream on the k-th carve:
`neighbors[Math.floor(Math.random() * neighbors.length)]`, with the random
index modelled as `choice k % neighbors.length`. -/
def chosenNext (w h : Int) (choice : ℕ → ℕ) (v : Int → Int → Bool)
    (current : Int × Int) (k : ℕ) : Int × Int :=
  (neighbors w h v current).getD (choice k % (neighbors w h v current).length) (0, 0)

/-- The wall cell between the current cell and the chosen neighbour:
`current + (next - current) / 2` on each axis. -/
def wallBetween (current next : Int × Int) : Int × Int :=
  (current.1 + (next.1 - current.1) / 2, current.2 + (next.2 - current.2) / 2)

/-- One iteration of the carving loop: inspect the top of the stack; if it
has unvisited neighbours, pick one by the choice stream, carve the wall
between (set to `pathTile`), mark the neighbour visited, set it to
`pathTile`, and push it; otherwise pop (backtrack). When the stack is empty
the state is returned unchanged (the loop has stopped). -/
def carveStep (w h : Int) (choice : ℕ → ℕ) (st : CarveState) : CarveState :=
  match st.stack with
  | [] => st
  | current :: rest =>
    let ns := neighbors w h st.visited current
    if 0 < ns.length then
      let next := chosenNext w h choice st.visited current st.k
      let wall := wallBetween current next
      { map := (st.map.setTile 0 wall.1 wall.2 pathTile).setTile 0 next.1 next.2 pathTile,
        visited := fun x y => if x = next.1 ∧ y = next.2 then true else st.visited x y,
        stack := next :: current :: rest,
        k := st.k + 1 }
    else
      { st with stack := rest }

/-- Iterate `carveStep` until the stack is empty or the fuel runs out. -/
def carveLoop (w h : Int) (choice : ℕ → ℕ) : ℕ → CarveState → CarveState
  | 0, st => st
  | fuel + 1, st =>
    if st.stack = [] then st
    else carveLoop w h choice fuel (carveStep w h choice st)

/-- Fuel that always suffices for the carving loop (proved below): the loop
measure `2 · #unvisited-interior-cells + stack length` starts at most here
and strictly decreases every iteration. -/
def carveFuel (w h : Int) : ℕ := 2 * (w.toNat * h.toNat) + 1

/-- The list of all in-range cell coordinates, row-major, used to model the
generator's initial all-wall double loop. -/
def allCoords (w h : Int) : List (Int × Int) :=
  (List.range h.toNat).flatMap (fun (y : ℕ) =>
    (List.range w.toNat).map (fun (x : ℕ) => ((x : Int), (y : Int))))

/-- The generator's initial fill: `setTile(0, x, y, wallTile)` for every cell
of the grid. -/
def fillWalls (tm : TileMap) : TileMap :=
  (allCoords tm.width tm.height).foldl (fun m c => m.setTile 0 c.1 c.2 wallTile) tm

/-- The map just before carving: a fresh one-layer map, filled with walls,
with the start tile written at (1,1). -/
def initMap (w h : Int) : TileMap :=
  (fillWalls ((mkTileMap w h 32).createLayer "maze").1).setTile 0 1 1 startTile

/-- The carving start state: cell (1,1) pushed and marked visited. -/
def initState (w h : Int) : CarveState :=
  ⟨initMap w h, fun x y => x == 1 && y == 1, [(1, 1)], 0⟩

/-- The state in which the carving loop stops. -/
def carvedState (w h : Int) (choice : ℕ → ℕ) : CarveState :=
  carveLoop w h choice (carveFuel w h) (initState w h)

/-- The carved map, before the end tile is placed. -/
def preEndMap (w h : Int) (choice : ℕ → ℕ) : TileMap :=
  (carvedState w h choice).map

/-- Manhattan distance from the start cell (1,1), the source's
`Math.abs(x - startX) + Math.abs(y - startY)`. -/
def dist (c : Int × Int) : ℕ := (c.1 - 1).natAbs + (c.2 - 1).natAbs

/-- The odd coordinates the end-selection scan visits along one axis:
`for (v = 1; v < bound - 1; v += 2)`. -/
def oddIndices (bound : Int) : List Int :=
  (List.range ((bound - 1).toNat / 2)).map (fun (k : ℕ) => 1 + 2 * (k : Int))

/-- The odd sub-lattice in row-major scan order, as visited by the
end-selection double loop. -/
def oddCoords (w h : Int) : List (Int × Int) :=
  (oddIndices h).flatMap (fun y => (oddIndices w).map (fun x => (x, y)))

/-- The scan's per-cell test: `tileMap.getTile(0, x, y)?.type === PATH`. -/
def isPathAt (m : TileMap) (c : Int × Int) : Bool :=
  match m.getTile 0 c.1 c.2 with
  | some t => decide (t.type = TileType.PATH)
  | none => false

/-- One step of the end-selection scan: keep the running
(end-candidate, maxDistance) pair, replacing it when the scanned cell is a
Path tile strictly farther than the current maximum. -/
def scanStep (m : TileMap) (acc : (Int × Int) × ℕ) (c : Int × Int) :
    (Int × Int) × ℕ :=
  if isPathAt m c = true ∧ acc.2 < dist c then (c, dist c) else acc

/-- The end-selection scan: runs over the odd sub-lattice in row-major order
starting from (endX, endY) = (1,1) and maxDistance = 0. -/
def scanEnd (m : TileMap) (w h : Int) : (Int × Int) × ℕ :=
  (oddCoords w h).foldl (scanStep m) ((1, 1), 0)

/-- The cell the generator marks as End. -/
def mazeEnd (w h : Int) (choice : ℕ → ℕ) : Int × Int :=
  (scanEnd (preEndMap w h choice) w h).1

/-- `MazeGenerator.generate()`: build the wall-filled map, carve by
randomized depth-first search from (1,1), then overwrite the farthest odd
Path cell (ties to the first in scan order, default (1,1)) with the end
tile. -/
def Gen.generate (g : Gen) (choice : ℕ → ℕ) : TileMap :=
  let e := mazeEnd g.width g.height choice
  (preEndMap g.width g.height choice).setTile 0 e.1 e.2 endTile

/-- A cell is carved (non-solid) when layer 0 holds a non-solid tile there. -/
def isCarvedAt (m : TileMap) (c : Int × Int) : Bool :=
  match m.getTile 0 c.1 c.2 with
  | some t => !t.solid
  | none => false

/-- Non-solidity as a proposition. -/
def NonSolid (m : TileMap) (c : Int × Int) : Prop := isCarvedAt m c = true

/-- Two cells are adjacent for maze connectivity when both are carved and
they are 4-neighbours. -/
def Adj (m : TileMap) (a b : Int × Int) : Prop :=
  NonSolid m a ∧ NonSolid m b ∧ (a.1 - b.1).natAbs + (a.2 - b.2).natAbs = 1

/-- Reachability through carved cells. -/
def Reachable (m : TileMap) (a b : Int × Int) : Prop :=
  Relation.ReflTransGen (Adj m) a b

/-- All in-range coordinates of a map, as a finite set. -/
def gridFinset (m : TileMap) : Finset (Int × Int) :=
  Finset.Icc 0 (m.width - 1) ×ˢ Finset.Icc 0 (m.height - 1)

/-- Number of carved cells on the odd sub-lattice (the carved lattice cells,
including Start and End). -/
def carvedOddCount (m : TileMap) : ℕ :=
  ((gridFinset m).filter (fun c =>
    isCarvedAt m c = true ∧ c.1 % 2 = 1 ∧ c.2 % 2 = 1)).card

/-- Number of carved cells off the odd sub-lattice (the removed between-cell
walls). -/
def carvedWallCount (m : TileMap) : ℕ :=
  ((gridFinset m).filter (fun c =>
    isCarvedAt m c = true ∧ ¬(c.1 % 2 = 1 ∧ c.2 % 2 = 1))).card

end MazeGenerator

/-!
Claim C9 — construction validation.
-/

/-- C9 counterexample: constructing the tile map with non-positive width,
height and cellSize does not fail — it returns a constructed `TileMap` whose
fields are exactly the invalid arguments (and the `MazeGenerator` constructor
likewise stores its arguments unchecked). -/
theorem construction_accepts_invalid_cex :
    mkTileMap (-1) 0 (-5) = { width := -1, height := 0, tileSize := -5, layers := [] } ∧
    MazeGenerator.Gen.mk (-1) 0 = { width := -1, height := 0 } :=
  ⟨rfl, rfl⟩

/-- C9 amended: the `TileMap` and `MazeGenerator` constructors perform no
validation at all; for every width, height and cellSize — non-positive
included — they return an object storing the arguments verbatim (the
`TileMap` starts with no layers). -/
theorem construction_stores_arguments (w h : Int) (ts : ℚ) :
    (mkTileMap w h ts).width = w ∧ (mkTileMap w h ts).height = h ∧
    (mkTileMap w h ts).tileSize = ts ∧ (mkTileMap w h ts).layers = [] ∧
    (MazeGenerator.Gen.mk w h).width = w ∧ (MazeGenerator.Gen.mk w h).height = h :=
  ⟨rfl, rfl, rfl, rfl, rfl, rfl⟩

/-!
Claim C8 — `createLayer` and duplicate ids.
-/

/-- C8 counterexample: calling `createLayer` with an id already used does not
fail — it appends a second layer with the same id. -/
theorem createLayer_duplicate_id_cex :
    ((((mkTileMap 2 2 32).createLayer "maze").1.createLayer "maze").1.layers.map
      TileLayer.id) = ["maze", "maze"] :=
  rfl

/-- C8 amended: `createLayer` never checks for duplicates; for every id —
fresh or already used — it appends exactly one new layer carrying that id, in
which every tile has kind Empty and `solid = false`. -/
theorem createLayer_always_appends (tm : TileMap) (id : String) :
    (tm.createLayer id).1.layers = tm.layers ++ [(tm.createLayer id).2] ∧
    (tm.createLayer id).2.id = id ∧
    (∀ y x, ((tm.createLayer id).2.tiles y x).type = TileType.EMPTY ∧
            ((tm.createLayer id).2.tiles y x).solid = false) :=
  ⟨rfl, rfl, fun _ _ => ⟨rfl, rfl⟩⟩

/-!
Claim C3 — entity-entity resolution on an exact overlap tie.
-/

/-- Two overlapping 10×10 bodies whose X and Y overlap depths are both 5. -/
def tieA : Entity := ⟨"a", 0, 0, 10, 10, 3, 4, true, true, [], 100, 0, 150, false⟩

/-- The second body of the tie configuration. -/
def tieB : Entity := ⟨"b", 5, 5, 10, 10, 0, 0, true, true, [], 100, 0, 150, false⟩

/-- C3 counterexample: on an exact overlap tie (both depths 5),
`resolveCollision` does NOT resolve horizontally: the first body's x and
velocity.x are left unchanged (3, not zeroed) and its y is moved. -/
theorem resolve_tie_not_horizontal_cex :
    (CollisionSystem.resolveCollision tieA tieB).1.x = tieA.x ∧
    (CollisionSystem.resolveCollision tieA tieB).1.vx = 3 ∧
    (CollisionSystem.resolveCollision tieA tieB).1.y ≠ tieA.y ∧
    (CollisionSystem.resolveCollision tieA tieB).1.vy = 0 := by
  with_unfolding_all decide

/-- C3 amended: for solid overlapping bodies whose X overlap depth equals the
Y overlap depth, `resolveCollision` resolves VERTICALLY (`overlapX < overlapY`
is false on a tie): it pushes `a` out to the nearer horizontal edge of `b` on
the Y axis and zeroes `a`'s velocity.y, leaving `a`'s x position and
velocity.x unchanged. -/
theorem resolve_equal_overlap_vertical (e1 e2 : Entity)
    (hc : CollisionSystem.checkCollision e1 e2 = true)
    (heq : min (e1.x + e1.width - e2.x) (e2.x + e2.width - e1.x)
         = min (e1.y + e1.height - e2.y) (e2.y + e2.height - e1.y)) :
    (CollisionSystem.resolveCollision e1 e2).1.x = e1.x ∧
    (CollisionSystem.resolveCollision e1 e2).1.vx = e1.vx ∧
    (CollisionSystem.resolveCollision e1 e2).1.vy = 0 ∧
    (CollisionSystem.resolveCollision e1 e2).1.y =
      (if e1.y < e2.y then e2.y - e1.height else e2.y + e2.height) := by
  unfold CollisionSystem.resolveCollision
  rw [hc]
  simp only [Bool.not_true, Bool.false_eq_true, if_false]
  rw [heq]
  simp only [lt_irrefl, if_false]
  constructor
  · rw [onCollisionWith_x]; split <;> rfl
  constructor
  · rw [onCollisionWith_vx]; split <;> rfl
  constructor
  · rw [onCollisionWith_vy]
  · rw [onCollisionWith_y]; split <;> rfl

/-- C3 witness: the amended theorem applied to the concrete tie
configuration. -/
theorem resolve_equal_overlap_vertical_witness :
    CollisionSystem.checkCollision tieA tieB = true ∧
    ((CollisionSystem.resolveCollision tieA tieB).1.x = tieA.x ∧
     (CollisionSystem.resolveCollision tieA tieB).1.vx = tieA.vx ∧
     (CollisionSystem.resolveCollision tieA tieB).1.vy = 0 ∧
     (CollisionSystem.resolveCollision tieA tieB).1.y =
       (if tieA.y < tieB.y then tieB.y - tieA.height else tieB.y + tieB.height)) :=
  ⟨by with_unfolding_all decide, resolve_equal_overlap_vertical tieA tieB
    (by with_unfolding_all decide) (by with_unfolding_all decide)⟩

/-!
Claim C6 — idempotence of tile-map collision resolution.
-/

/-- A 3-cell-wide, 1-cell-tall map whose every cell is a solid wall. -/
def wallRowMap : TileMap :=
  ⟨3, 1, 32, [⟨"maze", fun _ _ => wallTile, true⟩]⟩

/-- A solid 24×24 body buried inside the wall row at (20, 4). -/
def tunnelBody : Entity :=
  ⟨"p", 20, 4, 24, 24, 5, 0, true, true, ["player"], 100, 0, 150, true⟩

/-- C6 counterexample: one `resolveTileCollision` pass over the buried body
pushes it from x = 20 to x = 64, on top of the third wall cell, which was not
in the first pass's hit list; the immediately repeated call therefore finds a
solid overlap and moves the body again (to x = 96) — it is not a no-op. -/
theorem resolve_tile_not_idempotent_cex :
    CollisionSystem.resolveTileCollision
        (CollisionSystem.resolveTileCollision tunnelBody wallRowMap) wallRowMap
      ≠ CollisionSystem.resolveTileCollision tunnelBody wallRowMap := by
  with_unfolding_all decide

/-- C6 amended: `resolveTileCollision` is a no-op exactly when
`checkTileCollision` finds no overlapping solid cell; a body the first call
actually left overlap-free is untouched by the second call, but a single pass
does not guarantee that state. -/
theorem resolve_tile_noop_when_clear (e : Entity) (tm : TileMap)
    (h : (CollisionSystem.checkTileCollision e tm).1 = false) :
    CollisionSystem.resolveTileCollision e tm = e := by
  unfold CollisionSystem.resolveTileCollision
  simp only [h, Bool.not_false, if_true]

/-- A solid body positioned away from every wall of `wallRowMap`. -/
def clearBody : Entity :=
  ⟨"p", 200, 200, 24, 24, 0, 0, true, true, [], 100, 0, 150, true⟩

/-- C6 witness: the amended theorem applied to the clear body. -/
theorem resolve_tile_noop_when_clear_witness :
    (CollisionSystem.checkTileCollision clearBody wallRowMap).1 = false ∧
    CollisionSystem.resolveTileCollision clearBody wallRowMap = clearBody :=
  ⟨by with_unfolding_all decide,
   resolve_tile_noop_when_clear clearBody wallRowMap (by with_unfolding_all decide)⟩

/-!
Claim C2 — simultaneous win and lose in one `checkGameState` evaluation.
-/

/-- A 1×1 map whose only cell is the End tile. -/
def endCellMap : TileMap :=
  ⟨1, 1, 32, [⟨"maze", fun _ _ => endTile, true⟩]⟩

/-- A player standing on the End cell with 0 health. -/
def playerAtEnd : Entity :=
  ⟨"player", 0, 0, 24, 24, 0, 0, true, true, ["player"], 0, 0, 150, true⟩

/-- An engine state in which the win and lose conditions hold
simultaneously. -/
def winLoseState : EngineState :=
  ⟨some endCellMap, [playerAtEnd], some 0, ⟨true, false, 0, 1, false, false⟩⟩

/-- C2 counterexample: when the player's cell is the End tile and its health
is ≤ 0 in the same evaluation, `checkGameState` ends with `won = false`, not
`won = true`: the lose check is evaluated unconditionally after the win check
(there is no `else`) and overwrites the win. -/
theorem win_and_dead_gives_lose_cex :
    (GameEngine.checkGameState winLoseState false).state.gameOver = true ∧
    (GameEngine.checkGameState winLoseState false).state.won = false := by
  with_unfolding_all decide

/-- C2 amended: in a single win/lose evaluation in which the player's
occupying cell has kind End and the player's health is ≤ 0, both checks run —
the win check first sets `won := true`, then the lose check (which is not
guarded by the win check's outcome) overwrites it — so the evaluation ends
with `gameOver = true` and `won = false`. -/
theorem lose_overwrites_win (s : EngineState) (i : ℕ) (p : Entity) (tm : TileMap)
    (t : Tile)
    (hpi : s.player = some i) (hpe : s.entities.get? i = some p)
    (htm : s.tileMap = some tm)
    (ht : tm.getTile 0 ⌊p.x / tm.tileSize⌋ ⌊p.y / tm.tileSize⌋ = some t)
    (hend : t.type = TileType.END) (hdead : p.health ≤ 0) :
    (GameEngine.checkGameState s false).state.gameOver = true ∧
    (GameEngine.checkGameState s false).state.won = false := by
  obtain ⟨tmO, es, pl, st⟩ := s
  simp only at hpi htm hpe
  subst hpi
  subst htm
  simp only [GameEngine.checkGameState, GameEngine.getPlayer, Option.bind,
    hpe, ht, hend, if_true, if_pos hdead, Bool.and_false, Bool.false_eq_true,
    if_false]
  exact ⟨by trivial, by trivial⟩

/-- C2 witness: the amended theorem applied to the concrete simultaneous
win/lose state. -/
theorem lose_overwrites_win_witness :
    winLoseState.player = some 0 ∧
    winLoseState.entities.get? 0 = some playerAtEnd ∧
    winLoseState.tileMap = some endCellMap ∧
    endCellMap.getTile 0 ⌊playerAtEnd.x / endCellMap.tileSize⌋
      ⌊playerAtEnd.y / endCellMap.tileSize⌋ = some endTile ∧
    endTile.type = TileType.END ∧ playerAtEnd.health ≤ 0 ∧
    ((GameEngine.checkGameState winLoseState false).state.gameOver = true ∧
     (GameEngine.checkGameState winLoseState false).state.won = false) :=
  ⟨rfl, rfl, rfl, by with_unfolding_all decide, rfl, by decide,
   lose_overwrites_win winLoseState 0 playerAtEnd endCellMap endTile rfl rfl rfl
     (by with_unfolding_all decide) rfl (by decide)⟩

/-!
Claim C7 — fixed-timestep determinism with respect to accumulator batching.
-/

theorem runBatched_eq_runSteps (dt : ℚ) :
    ∀ (bs : List ℕ) (s : EngineState) (inputs : List (Direction × Bool)),
      GameEngine.runBatched s dt inputs bs =
        GameEngine.runSteps s dt (inputs.take bs.sum) := by
  intro bs
  induction bs with
  | nil =>
    intro s inputs
    simp [GameEngine.runBatched, GameEngine.runSteps]
  | cons n bs ih =>
    intro s inputs
    show GameEngine.runBatched (GameEngine.runSteps s dt (inputs.take n)) dt
        (inputs.drop n) bs = _
    rw [ih]
    unfold GameEngine.runSteps
    rw [← List.foldl_append]
    rw [List.sum_cons, List.take_add]

/-- C7: for a fixed initial engine state, a fixed per-step input sequence and
a fixed timestep, two runs that execute the same total number of physics
steps produce identical engine states — in particular identical body
positions and velocities — no matter how the frame-callback accumulator
batches those steps across frames: the batching only selects how many steps
run, never the effect of any individual step. -/
theorem fixed_timestep_batching_invariance (s : EngineState) (dt : ℚ)
    (inputs : List (Direction × Bool)) (b1 b2 : List ℕ)
    (h1 : b1.sum = inputs.length) (h2 : b2.sum = inputs.length) :
    GameEngine.runBatched s dt inputs b1 = GameEngine.runBatched s dt inputs b2 := by
  rw [runBatched_eq_runSteps, runBatched_eq_runSteps, h1, h2]

/-- A demonstration player for the batching witness. -/
def demoPlayer : Entity :=
  ⟨"player", 40, 40, 24, 24, 0, 0, true, true, ["player"], 100, 0, 150, true⟩

/-- A demonstration engine state for the batching witness. -/
def demoState : EngineState := ⟨none, [demoPlayer], some 0, restartGameState⟩

/-- A two-step input sequence for the batching witness. -/
def demoInputs : List (Direction × Bool) :=
  [(Direction.RIGHT, false), (Direction.DOWN, false)]

/-- C7 witness: running both steps in one frame equals running them as two
one-step frames. -/
theorem fixed_timestep_batching_invariance_witness :
    ([2] : List ℕ).sum = demoInputs.length ∧
    ([1, 1] : List ℕ).sum = demoInputs.length ∧
    GameEngine.runBatched demoState (1000 / 60) demoInputs [2] =
      GameEngine.runBatched demoState (1000 / 60) demoInputs [1, 1] :=
  ⟨by decide, by decide,
   fixed_timestep_batching_invariance demoState (1000 / 60) demoInputs [2] [1, 1]
     (by decide) (by decide)⟩

/-!
Infrastructure lemmas for the maze generator proofs.
-/

namespace MazeGenerator

theorem getD_mem {α : Type} :
    ∀ (l : List α) (n : ℕ) (d : α), n < l.length → l.getD n d ∈ l := by
  intro l
  induction l with
  | nil => intro n d h; simp at h
  | cons a as ih =>
    intro n d h
    cases n with
    | zero => simp [List.getD]
    | succ m =>
      have := ih m d (by simpa using h)
      simp only [List.getD, List.get?] at this ⊢
      exact List.mem_cons_of_mem a this

theorem mem_oddIndices (b a : Int) :
    a ∈ oddIndices b ↔ a % 2 = 1 ∧ 0 < a ∧ a < b - 1 := by
  unfold oddIndices
  simp only [List.mem_map, List.mem_range]
  constructor
  · rintro ⟨k, hk, rfl⟩
    omega
  · rintro ⟨h1, h2, h3⟩
    refine ⟨((a - 1) / 2).toNat, by omega, by omega⟩

theorem mem_oddCoords (w h : Int) (c : Int × Int) :
    c ∈ oddCoords w h ↔
      c.1 % 2 = 1 ∧ 0 < c.1 ∧ c.1 < w - 1 ∧ c.2 % 2 = 1 ∧ 0 < c.2 ∧ c.2 < h - 1 := by
  unfold oddCoords
  simp only [List.mem_flatMap, List.mem_map]
  constructor
  · rintro ⟨y, hy, x, hx, rfl⟩
    rw [mem_oddIndices] at hy hx
    exact ⟨hx.1, hx.2.1, hx.2.2, hy.1, hy.2.1, hy.2.2⟩
  · rintro ⟨h1, h2, h3, h4, h5, h6⟩
    exact ⟨c.2, (mem_oddIndices _ _).mpr ⟨h4, h5, h6⟩,
           c.1, (mem_oddIndices _ _).mpr ⟨h1, h2, h3⟩, rfl⟩

theorem mem_allCoords (w h : Int) (c : Int × Int) :
    c ∈ allCoords w h ↔ 0 ≤ c.1 ∧ c.1 < w ∧ 0 ≤ c.2 ∧ c.2 < h := by
  unfold allCoords
  simp only [List.mem_flatMap, List.mem_map, List.mem_range]
  constructor
  · rintro ⟨y, hy, x, hx, rfl⟩
    refine ⟨by omega, by omega, by omega, by omega⟩
  · rintro ⟨h1, h2, h3, h4⟩
    refine ⟨c.2.toNat, by omega, c.1.toNat, by omega, ?_⟩
    obtain ⟨cx, cy⟩ := c
    simp only [Prod.mk.injEq]
    omega

/-- Membership in the neighbour list, unpacked: the cell is two steps away in
one of the four directions, strictly inside the border, and unvisited. -/
theorem neighbors_spec (w h : Int) (visited : Int → Int → Bool) (c n : Int × Int)
    (hn : n ∈ neighbors w h visited c) :
    ((n.1 = c.1 ∧ (n.2 = c.2 - 2 ∨ n.2 = c.2 + 2)) ∨
     (n.2 = c.2 ∧ (n.1 = c.1 - 2 ∨ n.1 = c.1 + 2))) ∧
    0 < n.1 ∧ n.1 < w - 1 ∧ 0 < n.2 ∧ n.2 < h - 1 ∧ visited n.1 n.2 = false := by
  unfold neighbors at hn
  simp only [List.mem_filterMap] at hn
  obtain ⟨d, hd, hf⟩ := hn
  fin_cases hd <;>
    · simp only at hf
      split at hf
      · rename_i hcond
        cases hf
        refine ⟨by omega, hcond.1, hcond.2.1, hcond.2.2.1, hcond.2.2.2.1, hcond.2.2.2.2⟩
      · cases hf

end MazeGenerator

namespace MazeGenerator

theorem carveStep_nil (w h : Int) (choice : ℕ → ℕ) (m : TileMap)
    (v : Int → Int → Bool) (k : ℕ) :
    carveStep w h choice ⟨m, v, [], k⟩ = ⟨m, v, [], k⟩ :=
  rfl

theorem carveStep_carve (w h : Int) (choice : ℕ → ℕ) (m : TileMap)
    (v : Int → Int → Bool) (current : Int × Int) (rest : List (Int × Int)) (k : ℕ)
    (hlen : 0 < (neighbors w h v current).length) :
    carveStep w h choice ⟨m, v, current :: rest, k⟩ =
      ⟨(m.setTile 0 (wallBetween current (chosenNext w h choice v current k)).1
          (wallBetween current (chosenNext w h choice v current k)).2 pathTile).setTile 0
          (chosenNext w h choice v current k).1
          (chosenNext w h choice v current k).2 pathTile,
        fun x y => if x = (chosenNext w h choice v current k).1 ∧
            y = (chosenNext w h choice v current k).2 then true else v x y,
        chosenNext w h choice v current k :: current :: rest,
        k + 1⟩ := by
  simp only [carveStep, if_pos hlen]

theorem carveStep_backtrack (w h : Int) (choice : ℕ → ℕ) (m : TileMap)
    (v : Int → Int → Bool) (current : Int × Int) (rest : List (Int × Int)) (k : ℕ)
    (hlen : ¬ 0 < (neighbors w h v current).length) :
    carveStep w h choice ⟨m, v, current :: rest, k⟩ = ⟨m, v, rest, k⟩ := by
  simp only [carveStep, if_neg hlen]

theorem chosenNext_mem (w h : Int) (choice : ℕ → ℕ) (v : Int → Int → Bool)
    (current : Int × Int) (k : ℕ) (hlen : 0 < (neighbors w h v current).length) :
    chosenNext w h choice v current k ∈ neighbors w h v current :=
  getD_mem _ _ _ (Nat.mod_lt _ hlen)

/-- Parity invariant of the carving loop: every stacked cell has both
coordinates odd. -/
def StackOdd (st : CarveState) : Prop :=
  ∀ c ∈ st.stack, c.1 % 2 = 1 ∧ c.2 % 2 = 1

theorem stackOdd_init (w h : Int) : StackOdd (initState w h) := by
  intro c hc
  simp only [initState, List.mem_singleton] at hc
  subst hc
  exact ⟨rfl, rfl⟩

theorem stackOdd_carveStep (w h : Int) (choice : ℕ → ℕ) (st : CarveState)
    (hodd : StackOdd st) : StackOdd (carveStep w h choice st) := by
  obtain ⟨m, v, stk, k⟩ := st
  cases stk with
  | nil => rw [carveStep_nil]; exact hodd
  | cons current rest =>
    by_cases hlen : 0 < (neighbors w h v current).length
    · rw [carveStep_carve w h choice m v current rest k hlen]
      intro c hc
      simp only [List.mem_cons] at hc
      have hcur : current.1 % 2 = 1 ∧ current.2 % 2 = 1 :=
        hodd current (List.mem_cons_self _ _)
      rcases hc with rfl | rfl | hc
      · have hmem := chosenNext_mem w h choice v current k hlen
        have hsp := neighbors_spec w h v current _ hmem
        omega
      · exact hcur
      · exact hodd _ (List.mem_cons_of_mem _ hc)
    · rw [carveStep_backtrack w h choice m v current rest k hlen]
      intro c hc
      exact hodd _ (List.mem_cons_of_mem _ hc)

/-- The interior cells `0 < x < w-1, 0 < y < h-1` as a finite set. -/
def interiorF (w h : Int) : Finset (Int × Int) :=
  Finset.Icc 1 (w - 2) ×ˢ Finset.Icc 1 (h - 2)

/-- Number of unvisited interior cells. -/
def unvisitedCount (w h : Int) (st : CarveState) : ℕ :=
  ((interiorF w h).filter (fun c => st.visited c.1 c.2 = false)).card

/-- The loop measure: twice the unvisited interior cells plus the stack
height; every loop iteration strictly decreases it. -/
def carveMeasure (w h : Int) (st : CarveState) : ℕ :=
  2 * unvisitedCount w h st + st.stack.length

theorem filter_flip_erase (S : Finset (Int × Int)) (visited : Int → Int → Bool)
    (n : Int × Int) :
    S.filter (fun c => (if c.1 = n.1 ∧ c.2 = n.2 then true else visited c.1 c.2) = false)
      = (S.filter (fun c => visited c.1 c.2 = false)).erase n := by
  ext q
  simp only [Finset.mem_filter, Finset.mem_erase]
  constructor
  · rintro ⟨hq, hv⟩
    split at hv
    · cases hv
    · rename_i hne
      refine ⟨?_, hq, hv⟩
      rintro rfl
      exact hne ⟨rfl, rfl⟩
  · rintro ⟨hne, hq, hv⟩
    refine ⟨hq, ?_⟩
    rw [if_neg]
    · exact hv
    · rintro ⟨h1, h2⟩
      obtain ⟨q1, q2⟩ := q
      obtain ⟨n1, n2⟩ := n
      simp only at h1 h2
      subst h1
      subst h2
      exact hne rfl

theorem mem_interiorF (w h : Int) (c : Int × Int) :
    c ∈ interiorF w h ↔ 0 < c.1 ∧ c.1 < w - 1 ∧ 0 < c.2 ∧ c.2 < h - 1 := by
  unfold interiorF
  simp only [Finset.mem_product, Finset.mem_Icc]
  omega

theorem carveMeasure_decreases (w h : Int) (choice : ℕ → ℕ) (st : CarveState)
    (hne : st.stack ≠ []) :
    carveMeasure w h (carveStep w h choice st) < carveMeasure w h st := by
  obtain ⟨m, v, stk, k⟩ := st
  cases stk with
  | nil => exact absurd rfl hne
  | cons current rest =>
    by_cases hlen : 0 < (neighbors w h v current).length
    · rw [carveStep_carve w h choice m v current rest k hlen]
      have hmem := chosenNext_mem w h choice v current k hlen
      have hsp := neighbors_spec w h v current _ hmem
      unfold carveMeasure unvisitedCount
      simp only [filter_flip_erase]
      have hin : chosenNext w h choice v current k ∈
          (interiorF w h).filter (fun c => v c.1 c.2 = false) := by
        rw [Finset.mem_filter, mem_interiorF]
        exact ⟨⟨hsp.2.1, hsp.2.2.1, hsp.2.2.2.1, hsp.2.2.2.2.1⟩, hsp.2.2.2.2.2⟩
      rw [Finset.card_erase_of_mem hin]
      have hpos : 0 < ((interiorF w h).filter (fun c => v c.1 c.2 = false)).card :=
        Finset.card_pos.mpr ⟨_, hin⟩
      simp only [List.length_cons]
      omega
    · rw [carveStep_backtrack w h choice m v current rest k hlen]
      unfold carveMeasure
      have heqU : unvisitedCount w h ⟨m, v, rest, k⟩ =
          unvisitedCount w h ⟨m, v, current :: rest, k⟩ := rfl
      rw [heqU]
      simp only [List.length_cons]
      omega

theorem carveLoop_stack_empty (w h : Int) (choice : ℕ → ℕ) :
    ∀ (fuel : ℕ) (st : CarveState), carveMeasure w h st ≤ fuel →
      (carveLoop w h choice fuel st).stack = [] := by
  intro fuel
  induction fuel with
  | zero =>
    intro st hm
    unfold carveMeasure at hm
    simp only [carveLoop]
    exact List.length_eq_zero.mp (by omega)
  | succ n ih =>
    intro st hm
    unfold carveLoop
    split
    · assumption
    · rename_i hne
      apply ih
      have := carveMeasure_decreases w h choice st hne
      omega

end MazeGenerator

namespace MazeGenerator

theorem carveMeasure_init (w h : Int) :
    carveMeasure w h (initState w h) ≤ carveFuel w h := by
  have hU : unvisitedCount w h (initState w h) ≤ (w - 2).toNat * (h - 2).toNat := by
    unfold unvisitedCount
    calc ((interiorF w h).filter (fun c => (initState w h).visited c.1 c.2 = false)).card
        ≤ (interiorF w h).card := Finset.card_filter_le _ _
      _ = (w - 2).toNat * (h - 2).toNat := by
          unfold interiorF
          rw [Finset.card_product, Int.card_Icc, Int.card_Icc]
          congr 1 <;> omega
  have hmul : (w - 2).toNat * (h - 2).toNat ≤ w.toNat * h.toNat :=
    Nat.mul_le_mul (by omega) (by omega)
  unfold carveMeasure carveFuel
  have hst : (initState w h).stack.length = 1 := rfl
  omega

/-- Number of unvisited cells of the interior odd sub-lattice. -/
def oddUnvisited (w h : Int) (st : CarveState) : ℕ :=
  (((oddCoords w h).toFinset).filter (fun c => st.visited c.1 c.2 = false)).card

theorem k_oddUnvisited_step (w h : Int) (choice : ℕ → ℕ) (st : CarveState)
    (hodd : StackOdd st) :
    (carveStep w h choice st).k + oddUnvisited w h (carveStep w h choice st)
      ≤ st.k + oddUnvisited w h st := by
  obtain ⟨m, v, stk, k⟩ := st
  cases stk with
  | nil => rw [carveStep_nil]
  | cons current rest =>
    by_cases hlen : 0 < (neighbors w h v current).length
    · rw [carveStep_carve w h choice m v current rest k hlen]
      have hmem := chosenNext_mem w h choice v current k hlen
      have hsp := neighbors_spec w h v current _ hmem
      have hcur : current.1 % 2 = 1 ∧ current.2 % 2 = 1 :=
        hodd current (List.mem_cons_self _ _)
      unfold oddUnvisited
      simp only [filter_flip_erase]
      have hin : chosenNext w h choice v current k ∈
          (oddCoords w h).toFinset.filter (fun c => v c.1 c.2 = false) := by
        rw [Finset.mem_filter, List.mem_toFinset, mem_oddCoords]
        refine ⟨⟨by omega, by omega, by omega, by omega, by omega, by omega⟩,
          hsp.2.2.2.2.2⟩
      rw [Finset.card_erase_of_mem hin]
      have hpos : 0 < ((oddCoords w h).toFinset.filter
          (fun c => v c.1 c.2 = false)).card :=
        Finset.card_pos.mpr ⟨_, hin⟩
      omega
    · rw [carveStep_backtrack w h choice m v current rest k hlen]
      exact le_refl _

theorem carveLoop_k_bound (w h : Int) (choice : ℕ → ℕ) :
    ∀ (fuel : ℕ) (st : CarveState), StackOdd st →
      (carveLoop w h choice fuel st).k +
          oddUnvisited w h (carveLoop w h choice fuel st)
        ≤ st.k + oddUnvisited w h st := by
  intro fuel
  induction fuel with
  | zero => intro st _; exact le_refl _
  | succ n ih =>
    intro st hodd
    unfold carveLoop
    split
    · exact le_refl _
    · exact le_trans (ih _ (stackOdd_carveStep w h choice st hodd))
        (k_oddUnvisited_step w h choice st hodd)

theorem length_oddIndices (b : Int) : (oddIndices b).length = (b - 1).toNat / 2 := by
  unfold oddIndices
  rw [List.length_map, List.length_range]

theorem length_flatMap_const {α β : Type} (g : α → List β) (n : ℕ)
    (hg : ∀ a, (g a).length = n) :
    ∀ (l : List α), (l.flatMap g).length = l.length * n := by
  intro l
  induction l with
  | nil => simp
  | cons a as ih =>
    rw [List.flatMap_cons, List.length_append, ih, hg, List.length_cons,
      Nat.succ_mul, Nat.add_comm]

theorem length_oddCoords (w h : Int) :
    (oddCoords w h).length = ((h - 1).toNat / 2) * ((w - 1).toNat / 2) := by
  unfold oddCoords
  rw [length_flatMap_const _ ((w - 1).toNat / 2)
    (fun y => by rw [List.length_map, length_oddIndices]), length_oddIndices]

end MazeGenerator

/-- C5: for every width, height and every sequence of random neighbour
choices, the carving loop of `MazeGenerator.generate` terminates — with the
fuel `generate` uses, the final stack is empty — and, because only unvisited
interior odd-lattice cells are ever marked visited and pushed (each at most
once), the loop performs at most `⌈width/2⌉ × ⌈height/2⌉` carve visits
(`k` counts them). -/
theorem maze_generation_terminates (w h : Int) (choice : ℕ → ℕ) :
    (MazeGenerator.carvedState w h choice).stack = [] ∧
    (MazeGenerator.carvedState w h choice).k ≤
      ((w.toNat + 1) / 2) * ((h.toNat + 1) / 2) := by
  have hcs : MazeGenerator.carvedState w h choice =
      MazeGenerator.carveLoop w h choice (MazeGenerator.carveFuel w h)
        (MazeGenerator.initState w h) := rfl
  constructor
  · rw [hcs]
    exact MazeGenerator.carveLoop_stack_empty w h choice _ _
      (MazeGenerator.carveMeasure_init w h)
  · have h1 := MazeGenerator.carveLoop_k_bound w h choice
      (MazeGenerator.carveFuel w h) (MazeGenerator.initState w h)
      (MazeGenerator.stackOdd_init w h)
    rw [← hcs] at h1
    have h2 : (MazeGenerator.initState w h).k = 0 := rfl
    have h3 : MazeGenerator.oddUnvisited w h (MazeGenerator.initState w h)
        ≤ ((w.toNat + 1) / 2) * ((h.toNat + 1) / 2) := by
      calc MazeGenerator.oddUnvisited w h (MazeGenerator.initState w h)
          ≤ (MazeGenerator.oddCoords w h).toFinset.card := Finset.card_filter_le _ _
        _ ≤ (MazeGenerator.oddCoords w h).length := (MazeGenerator.oddCoords w h).toFinset_card_le
        _ = ((h - 1).toNat / 2) * ((w - 1).toNat / 2) := MazeGenerator.length_oddCoords w h
        _ ≤ ((h.toNat + 1) / 2) * ((w.toNat + 1) / 2) :=
            Nat.mul_le_mul (by omega) (by omega)
        _ = ((w.toNat + 1) / 2) * ((h.toNat + 1) / 2) := Nat.mul_comm _ _
    omega

namespace MazeGenerator

theorem foldl_setTile_width (L : List (Int × Int)) :
    ∀ (tm : TileMap),
      (L.foldl (fun m c => m.setTile 0 c.1 c.2 wallTile) tm).width = tm.width := by
  induction L with
  | nil => intro tm; rfl
  | cons c cs ih => intro tm; rw [List.foldl_cons, ih, setTile_width]

theorem foldl_setTile_height (L : List (Int × Int)) :
    ∀ (tm : TileMap),
      (L.foldl (fun m c => m.setTile 0 c.1 c.2 wallTile) tm).height = tm.height := by
  induction L with
  | nil => intro tm; rfl
  | cons c cs ih => intro tm; rw [List.foldl_cons, ih, setTile_height]

theorem foldl_setTile_layers (L : List (Int × Int)) :
    ∀ (tm : TileMap),
      (L.foldl (fun m c => m.setTile 0 c.1 c.2 wallTile) tm).layers.length
        = tm.layers.length := by
  induction L with
  | nil => intro tm; rfl
  | cons c cs ih => intro tm; rw [List.foldl_cons, ih, setTile_layers_length]

theorem pair_ne_of_ne {x y : Int} {c : Int × Int} (hxy : (x, y) ≠ c) :
    ¬(x = c.1 ∧ y = c.2) := by
  rintro ⟨h1, h2⟩
  obtain ⟨c1, c2⟩ := c
  simp only at h1 h2
  subst h1
  subst h2
  exact hxy rfl

theorem getTile_foldl_setTile (L : List (Int × Int)) :
    ∀ (tm : TileMap) (x y : Int),
      (L.foldl (fun m c => m.setTile 0 c.1 c.2 wallTile) tm).getTile 0 x y
        = if (x, y) ∈ L ∧ 0 < tm.layers.length ∧
             0 ≤ x ∧ x < tm.width ∧ 0 ≤ y ∧ y < tm.height
          then some wallTile else tm.getTile 0 x y := by
  induction L with
  | nil => intro tm x y; simp
  | cons c cs ih =>
    intro tm x y
    rw [List.foldl_cons, ih, setTile_width, setTile_height, setTile_layers_length]
    by_cases hmem : (x, y) ∈ cs ∧ 0 < tm.layers.length ∧
        0 ≤ x ∧ x < tm.width ∧ 0 ≤ y ∧ y < tm.height
    · rw [if_pos hmem, if_pos ⟨List.mem_cons_of_mem _ hmem.1, hmem.2⟩]
    · rw [if_neg hmem]
      by_cases hxy : (x, y) = c
      · by_cases hb : 0 < tm.layers.length ∧ 0 ≤ x ∧ x < tm.width ∧ 0 ≤ y ∧ y < tm.height
        · have hc : tm.setTile 0 c.1 c.2 wallTile = tm.setTile 0 x y wallTile := by
            rw [← hxy]
          rw [hc, getTile_setTile_same tm 0 x y wallTile (le_refl 0)
            (by exact_mod_cast hb.1) hb.2.1 hb.2.2.1 hb.2.2.2.1 hb.2.2.2.2]
          rw [if_pos ⟨hxy ▸ List.mem_cons_self c cs, hb⟩]
        · have hnoop : tm.setTile 0 c.1 c.2 wallTile = tm := by
            apply setTile_out_of_range
            have h1 : c.1 = x := (congrArg Prod.fst hxy).symm
            have h2 : c.2 = y := (congrArg Prod.snd hxy).symm
            rw [h1, h2]
            omega
          rw [hnoop, if_neg (fun hcon => hb hcon.2)]
      · rw [getTile_setTile_ne tm 0 c.1 c.2 wallTile x y (pair_ne_of_ne hxy)]
        rw [if_neg]
        rintro ⟨hm, hrest⟩
        rcases List.mem_cons.mp hm with h | h
        · exact hxy h
        · exact hmem ⟨h, hrest⟩

end MazeGenerator

namespace MazeGenerator

theorem fresh_width (w h : Int) :
    ((mkTileMap w h 32).createLayer "maze").1.width = w := rfl

theorem fresh_height (w h : Int) :
    ((mkTileMap w h 32).createLayer "maze").1.height = h := rfl

theorem fresh_layers (w h : Int) :
    ((mkTileMap w h 32).createLayer "maze").1.layers.length = 1 := rfl

theorem initMap_width (w h : Int) : (initMap w h).width = w := by
  unfold initMap fillWalls
  rw [setTile_width, foldl_setTile_width, fresh_width]

theorem initMap_height (w h : Int) : (initMap w h).height = h := by
  unfold initMap fillWalls
  rw [setTile_height, foldl_setTile_height, fresh_height]

theorem initMap_layers (w h : Int) : (initMap w h).layers.length = 1 := by
  unfold initMap fillWalls
  rw [setTile_layers_length, foldl_setTile_layers, fresh_layers]

theorem fillWalls_fresh_layers (w h : Int) :
    (fillWalls ((mkTileMap w h 32).createLayer "maze").1).layers.length = 1 := by
  unfold fillWalls
  rw [foldl_setTile_layers, fresh_layers]

theorem getTile_initMap_start (w h : Int) (hw : 2 ≤ w) (hh : 2 ≤ h) :
    (initMap w h).getTile 0 1 1 = some startTile := by
  unfold initMap
  apply getTile_setTile_same
  · exact le_refl 0
  · rw [fillWalls_fresh_layers]; omega
  · omega
  · unfold fillWalls; rw [foldl_setTile_width, fresh_width]; omega
  · omega
  · unfold fillWalls; rw [foldl_setTile_height, fresh_height]; omega

theorem getTile_initMap_wall (w h x y : Int)
    (hin : 0 ≤ x ∧ x < w ∧ 0 ≤ y ∧ y < h) (hne : ¬(x = 1 ∧ y = 1)) :
    (initMap w h).getTile 0 x y = some wallTile := by
  unfold initMap
  rw [getTile_setTile_ne _ _ _ _ _ _ _ hne]
  unfold fillWalls
  rw [getTile_foldl_setTile]
  rw [if_pos]
  refine ⟨(mem_allCoords w h (x, y)).mpr hin, ?_⟩
  constructor
  · simp [TileMap.createLayer, mkTileMap]
  · exact hin

theorem getTile_initMap_none (w h x y : Int)
    (hout : ¬(0 ≤ x ∧ x < w ∧ 0 ≤ y ∧ y < h)) :
    (initMap w h).getTile 0 x y = none := by
  by_cases h11 : x = 1 ∧ y = 1
  · unfold initMap
    have hnoop : (fillWalls ((mkTileMap w h 32).createLayer "maze").1).setTile 0 1 1
        startTile = fillWalls ((mkTileMap w h 32).createLayer "maze").1 := by
      apply setTile_out_of_range
      unfold fillWalls
      rw [foldl_setTile_width, foldl_setTile_height]
      simp only [TileMap.createLayer, mkTileMap]
      omega
    obtain ⟨rfl, rfl⟩ := h11
    rw [hnoop]
    unfold fillWalls
    rw [getTile_foldl_setTile, if_neg]
    · apply getTile_out_of_range
      simp only [TileMap.createLayer, mkTileMap]
      omega
    · rw [mem_allCoords]
      simp only [TileMap.createLayer, mkTileMap]
      rintro ⟨hm, -, hrest⟩
      exact hout hm
  · unfold initMap
    rw [getTile_setTile_ne _ _ _ _ _ _ _ h11]
    unfold fillWalls
    rw [getTile_foldl_setTile, if_neg]
    · apply getTile_out_of_range
      simp only [TileMap.createLayer, mkTileMap]
      omega
    · rw [mem_allCoords]
      simp only [TileMap.createLayer, mkTileMap]
      rintro ⟨hm, -, hrest⟩
      exact hout hm

theorem nonSolid_iff (m : TileMap) (c : Int × Int) :
    NonSolid m c ↔ ∃ t, m.getTile 0 c.1 c.2 = some t ∧ t.solid = false := by
  unfold NonSolid isCarvedAt
  cases hg : m.getTile 0 c.1 c.2 with
  | none => simp
  | some t =>
    simp only [Option.some.injEq]
    constructor
    · intro hb
      exact ⟨t, rfl, by simpa using hb⟩
    · rintro ⟨t2, rfl, hs⟩
      simpa using hs

/-- The strict interior of the grid, where carving happens. -/
def interiorP (w h : Int) (c : Int × Int) : Prop :=
  0 < c.1 ∧ c.1 < w - 1 ∧ 0 < c.2 ∧ c.2 < h - 1

/-- The loop invariant of the carving loop that drives the connectivity,
tree-count and end-selection proofs. -/
structure Inv (w h : Int) (st : CarveState) : Prop where
  map_w : st.map.width = w
  map_h : st.map.height = h
  map_l : st.map.layers.length = 1
  vis_start : st.visited 1 1 = true
  stack_vis : ∀ c ∈ st.stack, st.visited c.1 c.2 = true
  vis_odd : ∀ x y, st.visited x y = true → x % 2 = 1 ∧ y % 2 = 1
  vis_place : ∀ x y, st.visited x y = true → (x = 1 ∧ y = 1) ∨ interiorP w h (x, y)
  start_at : st.map.getTile 0 1 1 = some startTile
  tiles_val : ∀ x y t, st.map.getTile 0 x y = some t →
      t = wallTile ∨ t = startTile ∨ t = pathTile
  start_only : ∀ x y, st.map.getTile 0 x y = some startTile → x = 1 ∧ y = 1
  odd_sync : ∀ x y, x % 2 = 1 → y % 2 = 1 →
      (NonSolid st.map (x, y) ↔ st.visited x y = true)
  wall_sync : ∀ x y, ¬(x % 2 = 1 ∧ y % 2 = 1) → NonSolid st.map (x, y) →
      (x % 2 = 0 ∧ y % 2 = 1 ∧ st.visited (x - 1) y = true ∧
        st.visited (x + 1) y = true) ∨
      (x % 2 = 1 ∧ y % 2 = 0 ∧ st.visited x (y - 1) = true ∧
        st.visited x (y + 1) = true)
  reach : ∀ c, NonSolid st.map c → Reachable st.map (1, 1) c
  wall_dist : ∀ c, ¬(c.1 % 2 = 1 ∧ c.2 % 2 = 1) → NonSolid st.map c →
      ∃ p : Int × Int, p.1 % 2 = 1 ∧ p.2 % 2 = 1 ∧ NonSolid st.map p ∧
        p ≠ (1, 1) ∧ dist c ≤ dist p
  count_eq : carvedWallCount st.map + 1 = carvedOddCount st.map

end MazeGenerator

namespace MazeGenerator

theorem isCarved_initMap (w h : Int) (hw : 2 ≤ w) (hh : 2 ≤ h) (c : Int × Int) :
    NonSolid (initMap w h) c ↔ c = (1, 1) := by
  rw [nonSolid_iff]
  constructor
  · rintro ⟨t, hg, hs⟩
    by_cases hin : 0 ≤ c.1 ∧ c.1 < w ∧ 0 ≤ c.2 ∧ c.2 < h
    · by_cases h11 : c.1 = 1 ∧ c.2 = 1
      · obtain ⟨cx, cy⟩ := c
        obtain ⟨rfl, rfl⟩ := h11
        rfl
      · rw [getTile_initMap_wall w h c.1 c.2 hin h11] at hg
        cases hg
        simp [wallTile] at hs
    · rw [getTile_initMap_none w h c.1 c.2 hin] at hg
      cases hg
  · rintro rfl
    exact ⟨startTile, getTile_initMap_start w h hw hh, rfl⟩

theorem counts_initMap (w h : Int) (hw : 2 ≤ w) (hh : 2 ≤ h) :
    carvedWallCount (initMap w h) = 0 ∧ carvedOddCount (initMap w h) = 1 := by
  constructor
  · unfold carvedWallCount
    rw [Finset.card_eq_zero, Finset.filter_eq_empty_iff]
    intro c _
    rintro ⟨hcar, hodd⟩
    have hc11 : c = (1, 1) := (isCarved_initMap w h hw hh c).mp hcar
    subst hc11
    exact hodd ⟨rfl, rfl⟩
  · unfold carvedOddCount
    have hset : (gridFinset (initMap w h)).filter (fun c =>
        isCarvedAt (initMap w h) c = true ∧ c.1 % 2 = 1 ∧ c.2 % 2 = 1)
        = {((1 : Int), (1 : Int))} := by
      ext q
      simp only [Finset.mem_filter, Finset.mem_singleton]
      constructor
      · rintro ⟨-, hcar, -⟩
        exact (isCarved_initMap w h hw hh q).mp hcar
      · rintro rfl
        refine ⟨?_, (isCarved_initMap w h hw hh _).mpr rfl, rfl, rfl⟩
        unfold gridFinset
        rw [Finset.mem_product, Finset.mem_Icc, Finset.mem_Icc,
          initMap_width, initMap_height]
        omega
    rw [hset, Finset.card_singleton]

theorem inv_init (w h : Int) (hw : 2 ≤ w) (hh : 2 ≤ h) : Inv w h (initState w h) := by
  have hvis : ∀ x y : Int, (initState w h).visited x y = true ↔ x = 1 ∧ y = 1 := by
    intro x y
    show (x == 1 && y == 1) = true ↔ _
    simp [Bool.and_eq_true, beq_iff_eq]
  have hms : (initState w h).map = initMap w h := rfl
  refine
    { map_w := initMap_width w h
      map_h := initMap_height w h
      map_l := initMap_layers w h
      vis_start := rfl
      stack_vis := ?_
      vis_odd := ?_
      vis_place := ?_
      start_at := getTile_initMap_start w h hw hh
      tiles_val := ?_
      start_only := ?_
      odd_sync := ?_
      wall_sync := ?_
      reach := ?_
      wall_dist := ?_
      count_eq := ?_ }
  · intro c hc
    simp only [initState, List.mem_singleton] at hc
    subst hc
    rfl
  · intro x y hv
    obtain ⟨rfl, rfl⟩ := (hvis x y).mp hv
    exact ⟨rfl, rfl⟩
  · intro x y hv
    exact Or.inl ((hvis x y).mp hv)
  · intro x y t hg
    rw [hms] at hg
    by_cases hin : 0 ≤ x ∧ x < w ∧ 0 ≤ y ∧ y < h
    · by_cases h11 : x = 1 ∧ y = 1
      · obtain ⟨rfl, rfl⟩ := h11
        rw [getTile_initMap_start w h hw hh] at hg
        cases hg
        exact Or.inr (Or.inl rfl)
      · rw [getTile_initMap_wall w h x y hin h11] at hg
        cases hg
        exact Or.inl rfl
    · rw [getTile_initMap_none w h x y hin] at hg
      cases hg
  · intro x y hg
    rw [hms] at hg
    by_cases hin : 0 ≤ x ∧ x < w ∧ 0 ≤ y ∧ y < h
    · by_cases h11 : x = 1 ∧ y = 1
      · exact h11
      · rw [getTile_initMap_wall w h x y hin h11] at hg
        cases hg
    · rw [getTile_initMap_none w h x y hin] at hg
      cases hg
  · intro x y _ _
    rw [hvis x y]
    show NonSolid (initMap w h) (x, y) ↔ _
    rw [isCarved_initMap w h hw hh (x, y)]
    constructor
    · intro he
      exact ⟨congrArg Prod.fst he, congrArg Prod.snd he⟩
    · rintro ⟨rfl, rfl⟩
      rfl
  · intro x y hodd hns
    exfalso
    have := (isCarved_initMap w h hw hh (x, y)).mp hns
    apply hodd
    refine ⟨?_, ?_⟩
    · have : x = 1 := congrArg Prod.fst this
      omega
    · have : y = 1 := congrArg Prod.snd this
      omega
  · intro c hns
    have := (isCarved_initMap w h hw hh c).mp hns
    subst this
    exact Relation.ReflTransGen.refl
  · intro c hodd hns
    exfalso
    have hc := (isCarved_initMap w h hw hh c).mp hns
    subst hc
    exact hodd ⟨rfl, rfl⟩
  · have := counts_initMap w h hw hh
    show carvedWallCount (initMap w h) + 1 = carvedOddCount (initMap w h)
    omega

end MazeGenerator

namespace MazeGenerator

theorem reachable_mono (m m2 : TileMap)
    (hmono : ∀ c, NonSolid m c → NonSolid m2 c) :
    ∀ a b, Reachable m a b → Reachable m2 a b := by
  intro a b hr
  refine Relation.ReflTransGen.mono ?_ hr
  rintro x y ⟨h1, h2, h3⟩
  exact ⟨hmono x h1, hmono y h2, h3⟩


set_option maxHeartbeats 2000000 in
theorem inv_carveStep (w h : Int) (choice : ℕ → ℕ) (st : CarveState)
    (inv : Inv w h st) : Inv w h (carveStep w h choice st) := by
  obtain ⟨m, v, stk, k⟩ := st
  obtain ⟨mw, mh, ml, vs, sv, vo, vp, sa, tv, so, os, ws, rc, wd, ce⟩ := inv
  dsimp only at mw mh ml vs sv vo vp sa tv so os ws rc wd ce
  cases stk with
  | nil =>
    rw [carveStep_nil]
    exact ⟨mw, mh, ml, vs, sv, vo, vp, sa, tv, so, os, ws, rc, wd, ce⟩
  | cons current rest =>
    by_cases hlen : 0 < (neighbors w h v current).length
    case neg =>
      rw [carveStep_backtrack w h choice m v current rest k hlen]
      refine ⟨mw, mh, ml, vs, ?_, vo, vp, sa, tv, so, os, ws, rc, wd, ce⟩
      intro c hc
      exact sv c (List.mem_cons_of_mem _ hc)
    case pos =>
    rw [carveStep_carve w h choice m v current rest k hlen]
    have hmem := chosenNext_mem w h choice v current k hlen
    have hw1 : (wallBetween current (chosenNext w h choice v current k)).1 =
        current.1 + ((chosenNext w h choice v current k).1 - current.1) / 2 := rfl
    have hw2 : (wallBetween current (chosenNext w h choice v current k)).2 =
        current.2 + ((chosenNext w h choice v current k).2 - current.2) / 2 := rfl
    generalize hngen : chosenNext w h choice v current k = n at hmem hw1 hw2 ⊢
    generalize hwgen : wallBetween current n = wa at hw1 hw2 ⊢
    have hsp := neighbors_spec w h v current n hmem
    have hcv : v current.1 current.2 = true := sv current (List.mem_cons_self _ _)
    have hco : current.1 % 2 = 1 ∧ current.2 % 2 = 1 := vo _ _ hcv
    have hcp : (current.1 = 1 ∧ current.2 = 1) ∨ interiorP w h current := vp _ _ hcv
    obtain ⟨cx, cy⟩ := current
    obtain ⟨nx, ny⟩ := n
    obtain ⟨wx, wy⟩ := wa
    dsimp only at hw1 hw2 hsp hcv hco hcp ⊢
    unfold interiorP at hcp
    dsimp only at hcp
    have hnv : v nx ny = false := hsp.2.2.2.2.2
    have hni : 0 < nx ∧ nx < w - 1 ∧ 0 < ny ∧ ny < h - 1 :=
      ⟨hsp.2.1, hsp.2.2.1, hsp.2.2.2.1, hsp.2.2.2.2.1⟩
    have hgeo : (nx = cx ∧ (ny = cy - 2 ∨ ny = cy + 2)) ∨
        (ny = cy ∧ (nx = cx - 2 ∨ nx = cx + 2)) := hsp.1
    have hwhge : 3 ≤ w ∧ 3 ≤ h := by omega
    have hcg : 0 ≤ cx ∧ cx < w ∧ 0 ≤ cy ∧ cy < h := by omega
    have hno : nx % 2 = 1 ∧ ny % 2 = 1 := by omega
    have hn11 : ¬(nx = 1 ∧ ny = 1) := by
      rintro ⟨rfl, rfl⟩
      rw [vs] at hnv
      cases hnv
    have hwg : 0 ≤ wx ∧ wx < w ∧ 0 ≤ wy ∧ wy < h := by omega
    have hwo : ¬(wx % 2 = 1 ∧ wy % 2 = 1) := by omega
    have hwne_n : ¬(wx = nx ∧ wy = ny) := by omega
    have hw11 : ¬((1 : Int) = wx ∧ (1 : Int) = wy) := by omega
    have hn11s : ¬((1 : Int) = nx ∧ (1 : Int) = ny) := by
      rintro ⟨h1, h2⟩
      exact hn11 ⟨h1.symm, h2.symm⟩
    set m2 : TileMap :=
      (m.setTile 0 wx wy pathTile).setTile 0 nx ny pathTile with hm2def
    set v2 : Int → Int → Bool :=
      fun x y => if x = nx ∧ y = ny then true else v x y with hv2def
    have hget : ∀ x y : Int, m2.getTile 0 x y =
        if x = nx ∧ y = ny then some pathTile
        else if x = wx ∧ y = wy then some pathTile
        else m.getTile 0 x y := by
      intro x y
      by_cases h1 : x = nx ∧ y = ny
      · rw [if_pos h1]
        obtain ⟨rfl, rfl⟩ := h1
        rw [hm2def]
        apply getTile_setTile_same
        · exact le_refl 0
        · rw [setTile_layers_length, ml]; omega
        · omega
        · rw [setTile_width, mw]; omega
        · omega
        · rw [setTile_height, mh]; omega
      · rw [if_neg h1, hm2def, getTile_setTile_ne _ _ _ _ _ _ _ h1]
        by_cases h2 : x = wx ∧ y = wy
        · rw [if_pos h2]
          obtain ⟨rfl, rfl⟩ := h2
          apply getTile_setTile_same
          · exact le_refl 0
          · rw [ml]; omega
          · omega
          · rw [mw]; omega
          · omega
          · rw [mh]; omega
        · rw [if_neg h2, getTile_setTile_ne _ _ _ _ _ _ _ h2]
    have hns_n : NonSolid m2 (nx, ny) := by
      rw [nonSolid_iff]
      dsimp only
      rw [hget]
      exact ⟨pathTile, by rw [if_pos ⟨rfl, rfl⟩], rfl⟩
    have hns_wall : NonSolid m2 (wx, wy) := by
      rw [nonSolid_iff]
      dsimp only
      rw [hget]
      refine ⟨pathTile, ?_, rfl⟩
      rw [if_neg hwne_n, if_pos ⟨rfl, rfl⟩]
    have hmono : ∀ c, NonSolid m c → NonSolid m2 c := by
      intro c hc
      rw [nonSolid_iff] at hc ⊢
      obtain ⟨t, hg, hs⟩ := hc
      rw [hget]
      by_cases h1 : c.1 = nx ∧ c.2 = ny
      · exact ⟨pathTile, by rw [if_pos h1], rfl⟩
      · by_cases h2 : c.1 = wx ∧ c.2 = wy
        · exact ⟨pathTile, by rw [if_neg h1, if_pos h2], rfl⟩
        · exact ⟨t, by rw [if_neg h1, if_neg h2]; exact hg, hs⟩
    have hold_n : ¬ NonSolid m (nx, ny) := by
      intro hcon
      have := (os nx ny hno.1 hno.2).mp hcon
      rw [this] at hnv
      cases hnv
    have hold_wall : ¬ NonSolid m (wx, wy) := by
      intro hcon
      have hws2 := ws wx wy hwo hcon
      have hvn2 : v nx ny = true := by
        rcases hws2 with ⟨hp1, hp2, hv1, hv2⟩ | ⟨hp1, hp2, hv1, hv2⟩
        · have hadj : (nx = wx - 1 ∧ ny = wy) ∨ (nx = wx + 1 ∧ ny = wy) := by
            clear * - hgeo hw1 hw2 hco hp1 hp2
            omega
          rcases hadj with ⟨rfl, rfl⟩ | ⟨rfl, rfl⟩
          · exact hv1
          · exact hv2
        · have hadj : (nx = wx ∧ ny = wy - 1) ∨ (nx = wx ∧ ny = wy + 1) := by
            clear * - hgeo hw1 hw2 hco hp1 hp2
            omega
          rcases hadj with ⟨rfl, rfl⟩ | ⟨rfl, rfl⟩
          · exact hv1
          · exact hv2
      rw [hvn2] at hnv
      cases hnv
    have hback : ∀ c, NonSolid m2 c → c = (nx, ny) ∨ c = (wx, wy) ∨ NonSolid m c := by
      intro c hc
      rw [nonSolid_iff] at hc
      obtain ⟨t, hg, hs⟩ := hc
      rw [hget] at hg
      obtain ⟨c1, c2⟩ := c
      dsimp only at hg
      by_cases h1 : c1 = nx ∧ c2 = ny
      · left
        rw [h1.1, h1.2]
      · by_cases h2 : c1 = wx ∧ c2 = wy
        · right; left
          rw [h2.1, h2.2]
        · right; right
          rw [if_neg h1, if_neg h2] at hg
          rw [nonSolid_iff]
          exact ⟨t, hg, hs⟩
    have hv2mono : ∀ x y : Int, v x y = true → v2 x y = true := by
      intro x y hxy
      show (if x = nx ∧ y = ny then true else v x y) = true
      split
      · rfl
      · exact hxy
    have hv2n : v2 nx ny = true := by
      show (if nx = nx ∧ ny = ny then true else v nx ny) = true
      rw [if_pos ⟨rfl, rfl⟩]
    have hv2iff : ∀ x y : Int, v2 x y = true ↔ ((x = nx ∧ y = ny) ∨ v x y = true) := by
      intro x y
      show (if x = nx ∧ y = ny then true else v x y) = true ↔ _
      split
      · rename_i hc
        simp only [true_iff]
        exact Or.inl hc
      · rename_i hc
        constructor
        · exact Or.inr
        · rintro (hl | hr)
          · exact absurd hl hc
          · exact hr
    have hv2at : ∀ a b : Int, ((a = nx ∧ b = ny) ∨ (a = cx ∧ b = cy)) →
        v2 a b = true := by
      rintro a b (⟨rfl, rfl⟩ | ⟨rfl, rfl⟩)
      · exact hv2n
      · exact hv2mono _ _ hcv
    have hns_cur : NonSolid m (cx, cy) := (os cx cy hco.1 hco.2).mpr hcv
    have hreach2_cur : Reachable m2 (1, 1) (cx, cy) :=
      reachable_mono m m2 hmono _ _ (rc (cx, cy) hns_cur)
    have hadj_cw : Adj m2 (cx, cy) (wx, wy) :=
      ⟨hmono (cx, cy) hns_cur, hns_wall, by
        dsimp only
        clear * - hgeo hw1 hw2
        omega⟩
    have hadj_wn : Adj m2 (wx, wy) (nx, ny) :=
      ⟨hns_wall, hns_n, by
        dsimp only
        clear * - hgeo hw1 hw2
        omega⟩
    refine
      { map_w := by rw [setTile_width, setTile_width, mw]
        map_h := by rw [setTile_height, setTile_height, mh]
        map_l := by rw [setTile_layers_length, setTile_layers_length, ml]
        vis_start := hv2mono 1 1 vs
        stack_vis := ?_
        vis_odd := ?_
        vis_place := ?_
        start_at := ?_
        tiles_val := ?_
        start_only := ?_
        odd_sync := ?_
        wall_sync := ?_
        reach := ?_
        wall_dist := ?_
        count_eq := ?_ }
    · intro c hc
      simp only [List.mem_cons] at hc
      rcases hc with rfl | rfl | hc
      · exact hv2n
      · exact hv2mono _ _ hcv
      · exact hv2mono _ _ (sv c (List.mem_cons_of_mem _ hc))
    · intro x y hv2xy
      rcases (hv2iff x y).mp hv2xy with ⟨rfl, rfl⟩ | hold
      · exact ⟨hno.1, hno.2⟩
      · exact vo x y hold
    · intro x y hv2xy
      rcases (hv2iff x y).mp hv2xy with ⟨rfl, rfl⟩ | hold
      · right
        unfold interiorP
        dsimp only
        omega
      · exact vp x y hold
    · show m2.getTile 0 1 1 = some startTile
      rw [hget, if_neg hn11s, if_neg hw11]
      exact sa
    · intro x y t hg
      replace hg : m2.getTile 0 x y = some t := hg
      rw [hget] at hg
      split_ifs at hg with h1 h2
      · injection hg with hg
        exact Or.inr (Or.inr hg.symm)
      · injection hg with hg
        exact Or.inr (Or.inr hg.symm)
      · exact tv x y t hg
    · intro x y hg
      replace hg : m2.getTile 0 x y = some startTile := hg
      rw [hget] at hg
      split_ifs at hg with h1 h2
      · injection hg with hg
        exact absurd hg (by decide)
      · injection hg with hg
        exact absurd hg (by decide)
      · exact so x y hg
    · intro x y hx hy
      constructor
      · intro hns2
        rcases hback (x, y) hns2 with heq | heq | hold
        · have e1 : x = nx := congrArg Prod.fst heq
          have e2 : y = ny := congrArg Prod.snd heq
          exact (hv2iff x y).mpr (Or.inl ⟨e1, e2⟩)
        · exfalso
          have e1 : x = wx := congrArg Prod.fst heq
          have e2 : y = wy := congrArg Prod.snd heq
          clear * - e1 e2 hx hy hwo
          omega
        · exact hv2mono x y ((os x y hx hy).mp hold)
      · intro hv2xy
        rcases (hv2iff x y).mp hv2xy with ⟨rfl, rfl⟩ | hold
        · exact hns_n
        · exact hmono (x, y) ((os x y hx hy).mpr hold)
    · intro x y hxyodd hns2
      rcases hback (x, y) hns2 with heq | heq | hold
      · exfalso
        have e1 : x = nx := congrArg Prod.fst heq
        have e2 : y = ny := congrArg Prod.snd heq
        clear * - e1 e2 hxyodd hno
        omega
      · have e1 : x = wx := congrArg Prod.fst heq
        have e2 : y = wy := congrArg Prod.snd heq
        rcases hgeo with ⟨g1, g2⟩ | ⟨g1, g2⟩
        · refine Or.inr ⟨by clear * - e1 e2 g1 g2 hw1 hw2 hco; omega,
            by clear * - e1 e2 g1 g2 hw1 hw2 hco; omega,
            hv2at _ _ (by clear * - e1 e2 g1 g2 hw1 hw2 hco; omega),
            hv2at _ _ (by clear * - e1 e2 g1 g2 hw1 hw2 hco; omega)⟩
        · refine Or.inl ⟨by clear * - e1 e2 g1 g2 hw1 hw2 hco; omega,
            by clear * - e1 e2 g1 g2 hw1 hw2 hco; omega,
            hv2at _ _ (by clear * - e1 e2 g1 g2 hw1 hw2 hco; omega),
            hv2at _ _ (by clear * - e1 e2 g1 g2 hw1 hw2 hco; omega)⟩
      · rcases ws x y hxyodd hold with ⟨hp1, hp2, hv1, hv2⟩ | ⟨hp1, hp2, hv1, hv2⟩
        · exact Or.inl ⟨hp1, hp2, hv2mono _ _ hv1, hv2mono _ _ hv2⟩
        · exact Or.inr ⟨hp1, hp2, hv2mono _ _ hv1, hv2mono _ _ hv2⟩
    · intro c hns2
      rcases hback c hns2 with rfl | rfl | hold
      · exact Relation.ReflTransGen.tail
          (Relation.ReflTransGen.tail hreach2_cur hadj_cw) hadj_wn
      · exact Relation.ReflTransGen.tail hreach2_cur hadj_cw
      · exact reachable_mono m m2 hmono _ _ (rc c hold)
    · intro c hcodd hns2
      rcases hback c hns2 with rfl | rfl | hold
      · exact absurd ⟨hno.1, hno.2⟩ hcodd
      · by_cases hcur1 : cx = 1 ∧ cy = 1
        · refine ⟨(nx, ny), hno.1, hno.2, hns_n, ?_, ?_⟩
          · intro heq
            exact hn11 ⟨congrArg Prod.fst heq, congrArg Prod.snd heq⟩
          · unfold dist
            dsimp only
            clear * - hgeo hw1 hw2 hcur1 hco
            omega
        · by_cases hcmp : dist (wx, wy) ≤ dist (cx, cy)
          · refine ⟨(cx, cy), hco.1, hco.2, hmono (cx, cy) hns_cur, ?_, hcmp⟩
            intro heq
            exact hcur1 ⟨congrArg Prod.fst heq, congrArg Prod.snd heq⟩
          · refine ⟨(nx, ny), hno.1, hno.2, hns_n, ?_, ?_⟩
            · intro heq
              exact hn11 ⟨congrArg Prod.fst heq, congrArg Prod.snd heq⟩
            · unfold dist at hcmp ⊢
              dsimp only at hcmp ⊢
              clear * - hgeo hw1 hw2 hcmp hco
              omega
      · obtain ⟨p, hp1, hp2, hpns, hpne, hpd⟩ := wd c hcodd hold
        exact ⟨p, hp1, hp2, hmono p hpns, hpne, hpd⟩
    · show carvedWallCount m2 + 1 = carvedOddCount m2
      have e1 : m2.width = m.width := by rw [hm2def, setTile_width, setTile_width]
      have e2 : m2.height = m.height := by rw [hm2def, setTile_height, setTile_height]
      have hgw : gridFinset m2 = gridFinset m := by
        unfold gridFinset
        rw [e1, e2]
      have hwallmem : (wx, wy) ∈ gridFinset m := by
        unfold gridFinset
        rw [Finset.mem_product, Finset.mem_Icc, Finset.mem_Icc, mw, mh]
        dsimp only
        clear * - hwg
        omega
      have hnmem : (nx, ny) ∈ gridFinset m := by
        unfold gridFinset
        rw [Finset.mem_product, Finset.mem_Icc, Finset.mem_Icc, mw, mh]
        dsimp only
        clear * - hni
        omega
      have hfW : (gridFinset m2).filter (fun c =>
            isCarvedAt m2 c = true ∧ ¬(c.1 % 2 = 1 ∧ c.2 % 2 = 1))
          = insert ((wx : Int), (wy : Int)) ((gridFinset m).filter (fun c =>
            isCarvedAt m c = true ∧ ¬(c.1 % 2 = 1 ∧ c.2 % 2 = 1))) := by
        rw [hgw]
        ext q
        simp only [Finset.mem_insert, Finset.mem_filter]
        constructor
        · rintro ⟨hqg, hcar, hqodd⟩
          rcases hback q hcar with rfl | rfl | hold
          · exact absurd ⟨hno.1, hno.2⟩ hqodd
          · exact Or.inl rfl
          · exact Or.inr ⟨hqg, hold, hqodd⟩
        · rintro (rfl | ⟨hqg, hcar, hqodd⟩)
          · exact ⟨hwallmem, hns_wall, hwo⟩
          · exact ⟨hqg, hmono q hcar, hqodd⟩
      have hfO : (gridFinset m2).filter (fun c =>
            isCarvedAt m2 c = true ∧ c.1 % 2 = 1 ∧ c.2 % 2 = 1)
          = insert ((nx : Int), (ny : Int)) ((gridFinset m).filter (fun c =>
            isCarvedAt m c = true ∧ c.1 % 2 = 1 ∧ c.2 % 2 = 1)) := by
        rw [hgw]
        ext q
        simp only [Finset.mem_insert, Finset.mem_filter]
        constructor
        · rintro ⟨hqg, hcar, hqodd⟩
          rcases hback q hcar with rfl | rfl | hold
          · exact Or.inl rfl
          · exact absurd hqodd hwo
          · exact Or.inr ⟨hqg, hold, hqodd⟩
        · rintro (rfl | ⟨hqg, hcar, hqodd⟩)
          · exact ⟨hnmem, hns_n, hno⟩
          · exact ⟨hqg, hmono q hcar, hqodd⟩
      have hwnotin : ((wx : Int), (wy : Int)) ∉ (gridFinset m).filter (fun c =>
          isCarvedAt m c = true ∧ ¬(c.1 % 2 = 1 ∧ c.2 % 2 = 1)) := by
        rw [Finset.mem_filter]
        rintro ⟨-, hcar, -⟩
        exact hold_wall hcar
      have hnnotin : ((nx : Int), (ny : Int)) ∉ (gridFinset m).filter (fun c =>
          isCarvedAt m c = true ∧ c.1 % 2 = 1 ∧ c.2 % 2 = 1) := by
        rw [Finset.mem_filter]
        rintro ⟨-, hcar, -⟩
        exact hold_n hcar
      unfold carvedWallCount carvedOddCount
      rw [hfW, hfO, Finset.card_insert_of_not_mem hwnotin,
        Finset.card_insert_of_not_mem hnnotin]
      unfold carvedWallCount carvedOddCount at ce
      clear * - ce
      omega

theorem inv_carveLoop (w h : Int) (choice : ℕ → ℕ) :
    ∀ (fuel : ℕ) (st : CarveState), Inv w h st → Inv w h (carveLoop w h choice fuel st) := by
  intro fuel
  induction fuel with
  | zero => intro st hinv; exact hinv
  | succ n ih =>
    intro st hinv
    unfold carveLoop
    split
    · exact hinv
    · exact ih _ (inv_carveStep w h choice st hinv)

theorem inv_carvedState (w h : Int) (choice : ℕ → ℕ) (hw : 2 ≤ w) (hh : 2 ≤ h) :
    Inv w h (carvedState w h choice) :=
  inv_carveLoop w h choice _ _ (inv_init w h hw hh)

end MazeGenerator

namespace MazeGenerator

/-- Full characterisation of the end-selection fold over any cell list:
the running maximum only grows; it bounds every Path cell's distance; when it
grew, the result is a Path cell of the list attaining it; and the result is
then the FIRST cell of the list attaining the final maximum. -/
theorem scan_spec (m : TileMap) :
    ∀ (l : List (Int × Int)) (acc : (Int × Int) × ℕ),
      acc.2 ≤ (l.foldl (scanStep m) acc).2 ∧
      (∀ c ∈ l, isPathAt m c = true → dist c ≤ (l.foldl (scanStep m) acc).2) ∧
      ((l.foldl (scanStep m) acc) = acc ∨
        (isPathAt m (l.foldl (scanStep m) acc).1 = true ∧
         (l.foldl (scanStep m) acc).1 ∈ l ∧
         (l.foldl (scanStep m) acc).2 = dist (l.foldl (scanStep m) acc).1 ∧
         acc.2 < (l.foldl (scanStep m) acc).2)) ∧
      (acc.2 < (l.foldl (scanStep m) acc).2 →
        l.find? (fun c => isPathAt m c && (dist c == (l.foldl (scanStep m) acc).2))
          = some (l.foldl (scanStep m) acc).1) := by
  intro l
  induction l with
  | nil =>
    intro acc
    refine ⟨le_refl _, by simp, Or.inl rfl, ?_⟩
    intro hlt
    exact absurd hlt (lt_irrefl _)
  | cons c l ih =>
    intro acc
    rw [List.foldl_cons]
    by_cases hcond : isPathAt m c = true ∧ acc.2 < dist c
    · have hstep : scanStep m acc c = (c, dist c) := by
        unfold scanStep
        rw [if_pos hcond]
      rw [hstep]
      obtain ⟨ih1, ih2, ih3, ih4⟩ := ih (c, dist c)
      refine ⟨le_trans (le_of_lt hcond.2) ih1, ?_, ?_, ?_⟩
      · intro d hd hp
        rcases List.mem_cons.mp hd with rfl | hd
        · exact ih1
        · exact ih2 d hd hp
      · rcases ih3 with heq | ⟨hp, hmem, hdist, hlt⟩
        · right
          rw [heq]
          exact ⟨hcond.1, List.mem_cons_self _ _, rfl, hcond.2⟩
        · right
          exact ⟨hp, List.mem_cons_of_mem _ hmem, hdist, lt_trans hcond.2 hlt⟩
      · intro _
        rcases ih3 with heq | ⟨hp, hmem, hdist, hlt⟩
        · rw [heq]
          apply List.find?_cons_of_pos
          rw [hcond.1]
          simp
        · rw [List.find?_cons_of_neg, ih4 hlt]
          rw [hcond.1]
          simp only [Bool.true_and]
          have hne : dist c ≠ (l.foldl (scanStep m) (c, dist c)).2 := by
            have : (c, dist c).2 = dist c := rfl
            omega
          simpa using hne
    · have hstep : scanStep m acc c = acc := by
        unfold scanStep
        rw [if_neg hcond]
      rw [hstep]
      obtain ⟨ih1, ih2, ih3, ih4⟩ := ih acc
      refine ⟨ih1, ?_, ?_, ?_⟩
      · intro d hd hp
        rcases List.mem_cons.mp hd with rfl | hd
        · have hle : dist d ≤ acc.2 := by
            by_contra hgt
            exact hcond ⟨hp, by omega⟩
          exact le_trans hle ih1
        · exact ih2 d hd hp
      · rcases ih3 with heq | ⟨hp, hmem, hdist, hlt⟩
        · exact Or.inl heq
        · exact Or.inr ⟨hp, List.mem_cons_of_mem _ hmem, hdist, hlt⟩
      · intro hlt
        rw [List.find?_cons_of_neg, ih4 hlt]
        cases hcp : isPathAt m c with
        | false => simp
        | true =>
          simp only [Bool.true_and]
          have hle : dist c ≤ acc.2 := by
            by_contra hgt
            exact hcond ⟨hcp, by omega⟩
          have hne : dist c ≠ (l.foldl (scanStep m) acc).2 := by omega
          simpa using hne

/-- When no scanned cell is a Path tile, the fold never updates and the end
cell stays the default (1, 1). -/
theorem scan_no_update (m : TileMap) :
    ∀ (l : List (Int × Int)) (acc : (Int × Int) × ℕ),
      (∀ c ∈ l, isPathAt m c = false) → l.foldl (scanStep m) acc = acc := by
  intro l
  induction l with
  | nil => intro acc _; rfl
  | cons c l ih =>
    intro acc hall
    rw [List.foldl_cons]
    have hc : isPathAt m c = false := hall c (List.mem_cons_self _ _)
    have hstep : scanStep m acc c = acc := by
      unfold scanStep
      rw [if_neg]
      rintro ⟨h1, -⟩
      rw [hc] at h1
      cases h1
    rw [hstep]
    exact ih acc (fun d hd => hall d (List.mem_cons_of_mem _ hd))

end MazeGenerator

namespace MazeGenerator

theorem isPath_gives_pathTile (m : TileMap)
    (tv : ∀ x y t, m.getTile 0 x y = some t →
      t = wallTile ∨ t = startTile ∨ t = pathTile)
    (c : Int × Int) (hp : isPathAt m c = true) :
    m.getTile 0 c.1 c.2 = some pathTile := by
  unfold isPathAt at hp
  cases hg : m.getTile 0 c.1 c.2 with
  | none => rw [hg] at hp; cases hp
  | some t =>
    rw [hg] at hp
    have ht : t.type = TileType.PATH := of_decide_eq_true hp
    rcases tv c.1 c.2 t hg with rfl | rfl | rfl
    · cases ht
    · cases ht
    · rfl

end MazeGenerator

/-- C1 counterexample: for width 1 and height 2 the generator returns an
all-wall map with no carved cell at all (the Start write at (1,1) is out of
range), so the carved-wall count 0 does not equal the carved-odd-cell count
minus one (0 − 1 = −1). -/
theorem maze_tree_count_cex :
    ¬((MazeGenerator.carvedWallCount (MazeGenerator.Gen.generate ⟨1, 2⟩ (fun _ => 0)) : ℤ)
      = (MazeGenerator.carvedOddCount (MazeGenerator.Gen.generate ⟨1, 2⟩ (fun _ => 0)) : ℤ)
        - 1) := by
  with_unfolding_all decide

/-- C1 (amended): for every width ≥ 2 and height ≥ 2 (so that the grid
contains the Start cell (1,1); the source crashes for height < 2 and writes
no Start for width < 2) and every sequence of random neighbour choices, the
maze produced by `MazeGenerator.generate` satisfies the spanning-tree
property: every cell of kind Path, Start or End is reachable from (1,1)
through 4-adjacent non-solid cells, and the number of carved between-cell
wall removals equals the number of carved odd-lattice cells minus 1. -/
theorem maze_spanning_tree (w h : Int) (choice : ℕ → ℕ) (hw : 2 ≤ w) (hh : 2 ≤ h) :
    (∀ x y t, (MazeGenerator.Gen.generate ⟨w, h⟩ choice).getTile 0 x y = some t →
        (t.type = TileType.PATH ∨ t.type = TileType.START ∨ t.type = TileType.END) →
        MazeGenerator.Reachable (MazeGenerator.Gen.generate ⟨w, h⟩ choice) (1, 1) (x, y)) ∧
    (MazeGenerator.carvedWallCount (MazeGenerator.Gen.generate ⟨w, h⟩ choice) : ℤ)
      = (MazeGenerator.carvedOddCount (MazeGenerator.Gen.generate ⟨w, h⟩ choice) : ℤ) - 1 := by
  obtain ⟨mw, mh, ml, vs, sv, vo, vp, sa, tv, so, os, ws, rc, wd, ce⟩ :=
    MazeGenerator.inv_carvedState w h choice hw hh
  set st : MazeGenerator.CarveState := MazeGenerator.carvedState w h choice with hst
  set e : Int × Int := MazeGenerator.mazeEnd w h choice with he
  have hgen : MazeGenerator.Gen.generate ⟨w, h⟩ choice =
      st.map.setTile 0 e.1 e.2 endTile := rfl
  have hEfold : MazeGenerator.scanEnd st.map w h =
      (MazeGenerator.oddCoords w h).foldl (MazeGenerator.scanStep st.map)
        ((1, 1), 0) := rfl
  have hscan := MazeGenerator.scan_spec st.map (MazeGenerator.oddCoords w h) ((1, 1), 0)
  rw [← hEfold] at hscan
  have hE1 : (MazeGenerator.scanEnd st.map w h).1 = e := rfl
  have hecases : e = (1, 1) ∨
      (MazeGenerator.isPathAt st.map e = true ∧ e ∈ MazeGenerator.oddCoords w h) := by
    rcases hscan.2.2.1 with heq | ⟨hp, hmem, -, -⟩
    · left
      rw [← hE1, heq]
    · right
      rw [← hE1]
      exact ⟨hp, hmem⟩
  have hens : MazeGenerator.NonSolid st.map e := by
    rcases hecases with heq | ⟨hp, -⟩
    · rw [heq]
      rw [MazeGenerator.nonSolid_iff]
      exact ⟨startTile, sa, rfl⟩
    · rw [MazeGenerator.nonSolid_iff]
      exact ⟨pathTile, MazeGenerator.isPath_gives_pathTile st.map tv e hp, rfl⟩
  have heg : 0 ≤ e.1 ∧ e.1 < w ∧ 0 ≤ e.2 ∧ e.2 < h := by
    rcases hecases with heq | ⟨-, hmem⟩
    · rw [heq]
      constructor
      · decide
      refine ⟨by omega, by decide, by omega⟩
    · rw [MazeGenerator.mem_oddCoords] at hmem
      omega
  have hget2 : ∀ x y : Int, (st.map.setTile 0 e.1 e.2 endTile).getTile 0 x y =
      if x = e.1 ∧ y = e.2 then some endTile else st.map.getTile 0 x y := by
    intro x y
    by_cases h1 : x = e.1 ∧ y = e.2
    · rw [if_pos h1]
      obtain ⟨rfl, rfl⟩ := h1
      apply getTile_setTile_same
      · exact le_refl 0
      · rw [ml]; omega
      · exact heg.1
      · rw [mw]; exact heg.2.1
      · exact heg.2.2.1
      · rw [mh]; exact heg.2.2.2
    · rw [if_neg h1, getTile_setTile_ne _ _ _ _ _ _ _ h1]
  have hmono2 : ∀ c, MazeGenerator.NonSolid st.map c →
      MazeGenerator.NonSolid (st.map.setTile 0 e.1 e.2 endTile) c := by
    intro c hc
    rw [MazeGenerator.nonSolid_iff] at hc ⊢
    obtain ⟨t, hg, hs⟩ := hc
    rw [hget2]
    by_cases h1 : c.1 = e.1 ∧ c.2 = e.2
    · exact ⟨endTile, by rw [if_pos h1], rfl⟩
    · exact ⟨t, by rw [if_neg h1]; exact hg, hs⟩
  have hback2 : ∀ c, MazeGenerator.NonSolid (st.map.setTile 0 e.1 e.2 endTile) c →
      MazeGenerator.NonSolid st.map c := by
    intro c hc
    rw [MazeGenerator.nonSolid_iff] at hc
    obtain ⟨t, hg, hs⟩ := hc
    rw [hget2] at hg
    by_cases h1 : c.1 = e.1 ∧ c.2 = e.2
    · have : c = e := by
        obtain ⟨c1, c2⟩ := c
        obtain ⟨e1, e2⟩ := e
        simp only at h1
        rw [h1.1, h1.2]
      rw [this]
      exact hens
    · rw [if_neg h1] at hg
      rw [MazeGenerator.nonSolid_iff]
      exact ⟨t, hg, hs⟩
  constructor
  · intro x y t hg htype
    rw [hgen] at hg ⊢
    rw [hget2] at hg
    have hns : MazeGenerator.NonSolid st.map (x, y) := by
      by_cases h1 : x = e.1 ∧ y = e.2
      · have : (x, y) = e := by
          obtain ⟨e1, e2⟩ := e
          rw [h1.1, h1.2]
        rw [this]
        exact hens
      · rw [if_neg h1] at hg
        rcases tv x y t hg with rfl | rfl | rfl
        · rcases htype with hty | hty | hty <;> cases hty
        · rw [MazeGenerator.nonSolid_iff]
          exact ⟨startTile, hg, rfl⟩
        · rw [MazeGenerator.nonSolid_iff]
          exact ⟨pathTile, hg, rfl⟩
    exact MazeGenerator.reachable_mono st.map _ hmono2 _ _ (rc (x, y) hns)
  · have hgw : MazeGenerator.gridFinset (st.map.setTile 0 e.1 e.2 endTile)
        = MazeGenerator.gridFinset st.map := by
      unfold MazeGenerator.gridFinset
      rw [setTile_width, setTile_height]
    have hWeq : MazeGenerator.carvedWallCount (st.map.setTile 0 e.1 e.2 endTile)
        = MazeGenerator.carvedWallCount st.map := by
      unfold MazeGenerator.carvedWallCount
      rw [hgw]
      congr 1
      apply Finset.filter_congr
      intro q _
      constructor
      · rintro ⟨hcar, hodd⟩
        exact ⟨hback2 q hcar, hodd⟩
      · rintro ⟨hcar, hodd⟩
        exact ⟨hmono2 q hcar, hodd⟩
    have hOeq : MazeGenerator.carvedOddCount (st.map.setTile 0 e.1 e.2 endTile)
        = MazeGenerator.carvedOddCount st.map := by
      unfold MazeGenerator.carvedOddCount
      rw [hgw]
      congr 1
      apply Finset.filter_congr
      intro q _
      constructor
      · rintro ⟨hcar, hodd⟩
        exact ⟨hback2 q hcar, hodd⟩
      · rintro ⟨hcar, hodd⟩
        exact ⟨hmono2 q hcar, hodd⟩
    rw [hgen, hWeq, hOeq]
    omega

/-- C1 witness: the amended theorem applied to the 3×3 maze with the constant
choice stream. -/
theorem maze_spanning_tree_witness :
    (2 ≤ (3 : Int)) ∧
    ((∀ x y t, (MazeGenerator.Gen.generate ⟨3, 3⟩ (fun _ => 0)).getTile 0 x y = some t →
        (t.type = TileType.PATH ∨ t.type = TileType.START ∨ t.type = TileType.END) →
        MazeGenerator.Reachable (MazeGenerator.Gen.generate ⟨3, 3⟩ (fun _ => 0)) (1, 1) (x, y)) ∧
     (MazeGenerator.carvedWallCount (MazeGenerator.Gen.generate ⟨3, 3⟩ (fun _ => 0)) : ℤ)
       = (MazeGenerator.carvedOddCount (MazeGenerator.Gen.generate ⟨3, 3⟩ (fun _ => 0)) : ℤ)
         - 1) :=
  ⟨by decide, maze_spanning_tree 3 3 (fun _ => 0) (by decide) (by decide)⟩

namespace MazeGenerator

/-- Properties of the selected end cell: it is in range, it is carved in the
pre-End map, and it is either the default (1,1) or an odd-lattice Path cell
the scan found. -/
theorem mazeEnd_spec (w h : Int) (choice : ℕ → ℕ) (hw : 2 ≤ w) (hh : 2 ≤ h) :
    (0 ≤ (mazeEnd w h choice).1 ∧ (mazeEnd w h choice).1 < w ∧
     0 ≤ (mazeEnd w h choice).2 ∧ (mazeEnd w h choice).2 < h) ∧
    NonSolid (preEndMap w h choice) (mazeEnd w h choice) ∧
    (mazeEnd w h choice = (1, 1) ∨
      (isPathAt (preEndMap w h choice) (mazeEnd w h choice) = true ∧
       mazeEnd w h choice ∈ oddCoords w h)) := by
  obtain ⟨mw, mh, ml, vs, sv, vo, vp, sa, tv, so, os, ws, rc, wd, ce⟩ :=
    inv_carvedState w h choice hw hh
  have hscan := scan_spec (preEndMap w h choice) (oddCoords w h) ((1, 1), 0)
  have hE1 : ((oddCoords w h).foldl (scanStep (preEndMap w h choice)) ((1, 1), 0)).1
      = mazeEnd w h choice := rfl
  have hecases : mazeEnd w h choice = (1, 1) ∨
      (isPathAt (preEndMap w h choice) (mazeEnd w h choice) = true ∧
       mazeEnd w h choice ∈ oddCoords w h) := by
    rcases hscan.2.2.1 with heq | ⟨hp, hmem, -, -⟩
    · left
      rw [← hE1, heq]
    · right
      rw [← hE1]
      exact ⟨hp, hmem⟩
  have hens : NonSolid (preEndMap w h choice) (mazeEnd w h choice) := by
    rcases hecases with heq | ⟨hp, -⟩
    · rw [heq, nonSolid_iff]
      exact ⟨startTile, sa, rfl⟩
    · rw [nonSolid_iff]
      exact ⟨pathTile, isPath_gives_pathTile _ tv _ hp, rfl⟩
  refine ⟨?_, hens, hecases⟩
  rcases hecases with heq | ⟨-, hmem⟩
  · rw [heq]
    refine ⟨by decide, by omega, by decide, by omega⟩
  · rw [mem_oddCoords] at hmem
    omega

/-- Reading the generated map: the end tile sits at the selected end cell and
every other cell keeps its pre-End tile. -/
theorem gen_getTile (w h : Int) (choice : ℕ → ℕ) (hw : 2 ≤ w) (hh : 2 ≤ h) :
    ∀ x y : Int, (Gen.generate ⟨w, h⟩ choice).getTile 0 x y =
      if x = (mazeEnd w h choice).1 ∧ y = (mazeEnd w h choice).2
      then some endTile
      else (preEndMap w h choice).getTile 0 x y := by
  obtain ⟨mw, mh, ml, vs, sv, vo, vp, sa, tv, so, os, ws, rc, wd, ce⟩ :=
    inv_carvedState w h choice hw hh
  have hpm : (carvedState w h choice).map = preEndMap w h choice := rfl
  rw [hpm] at mw mh ml
  obtain ⟨heg, -, -⟩ := mazeEnd_spec w h choice hw hh
  intro x y
  show ((preEndMap w h choice).setTile 0 (mazeEnd w h choice).1
      (mazeEnd w h choice).2 endTile).getTile 0 x y = _
  by_cases h1 : x = (mazeEnd w h choice).1 ∧ y = (mazeEnd w h choice).2
  · rw [if_pos h1]
    obtain ⟨rfl, rfl⟩ := h1
    apply getTile_setTile_same
    · exact le_refl 0
    · rw [ml]; omega
    · exact heg.1
    · rw [mw]; exact heg.2.1
    · exact heg.2.2.1
    · rw [mh]; exact heg.2.2.2
  · rw [if_neg h1, getTile_setTile_ne _ _ _ _ _ _ _ h1]

end MazeGenerator

/-- C4 counterexample: for the 3×3 maze (any choice stream) no odd-lattice
Path cell exists, so the scan never updates: the cell marked End is (1,1),
which held the START tile, not a Path tile — the claim that the End cell is
always a Path cell on the odd sub-lattice fails. -/
theorem maze_end_not_path_cex :
    MazeGenerator.mazeEnd 3 3 (fun _ => 0) = (1, 1) ∧
    (MazeGenerator.Gen.generate ⟨3, 3⟩ (fun _ => 0)).getTile 0 1 1 = some endTile ∧
    MazeGenerator.isPathAt (MazeGenerator.preEndMap 3 3 (fun _ => 0)) (1, 1) = false ∧
    (MazeGenerator.preEndMap 3 3 (fun _ => 0)).getTile 0 1 1 = some startTile := by
  with_unfolding_all decide

/-- C4 (amended): provided the carved maze has at least one Path cell on the
odd sub-lattice, the cell marked End by `MazeGenerator.generate` is an
odd-sub-lattice Path cell whose Manhattan distance from the start (1,1) is ≥
the distance of every other Path cell of the final maze (the carved
between-cell wall cells included), and among the odd-sub-lattice Path cells
attaining that distance it is the first one in row-major scan order. -/
theorem maze_end_selection (w h : Int) (choice : ℕ → ℕ)
    (hp : ∃ c ∈ MazeGenerator.oddCoords w h,
      MazeGenerator.isPathAt (MazeGenerator.preEndMap w h choice) c = true) :
    ((MazeGenerator.mazeEnd w h choice).1 % 2 = 1 ∧
     (MazeGenerator.mazeEnd w h choice).2 % 2 = 1) ∧
    MazeGenerator.isPathAt (MazeGenerator.preEndMap w h choice)
      (MazeGenerator.mazeEnd w h choice) = true ∧
    (MazeGenerator.Gen.generate ⟨w, h⟩ choice).getTile 0
      (MazeGenerator.mazeEnd w h choice).1 (MazeGenerator.mazeEnd w h choice).2
      = some endTile ∧
    (∀ x y t, (MazeGenerator.Gen.generate ⟨w, h⟩ choice).getTile 0 x y = some t →
      t.type = TileType.PATH →
      MazeGenerator.dist (x, y) ≤ MazeGenerator.dist (MazeGenerator.mazeEnd w h choice)) ∧
    (MazeGenerator.oddCoords w h).find? (fun c =>
        MazeGenerator.isPathAt (MazeGenerator.preEndMap w h choice) c &&
        (MazeGenerator.dist c == MazeGenerator.dist (MazeGenerator.mazeEnd w h choice)))
      = some (MazeGenerator.mazeEnd w h choice) := by
  obtain ⟨c0, hc0mem, hc0path⟩ := hp
  have hc0b := (MazeGenerator.mem_oddCoords w h c0).mp hc0mem
  have hw : 2 ≤ w := by omega
  have hh : 2 ≤ h := by omega
  obtain ⟨mw, mh, ml, vs, sv, vo, vp, sa, tv, so, os, ws, rc, wd, ce⟩ :=
    MazeGenerator.inv_carvedState w h choice hw hh
  have hpm : (MazeGenerator.carvedState w h choice).map =
      MazeGenerator.preEndMap w h choice := rfl
  rw [hpm] at mw mh ml sa tv so os ws rc wd ce
  have hscan := MazeGenerator.scan_spec (MazeGenerator.preEndMap w h choice)
    (MazeGenerator.oddCoords w h) ((1, 1), 0)
  have hE1 : ((MazeGenerator.oddCoords w h).foldl
      (MazeGenerator.scanStep (MazeGenerator.preEndMap w h choice)) ((1, 1), 0)).1
      = MazeGenerator.mazeEnd w h choice := rfl
  rcases hscan.2.2.1 with heq | ⟨hp1, hmem, hdist, hlt⟩
  · exfalso
    have hb := hscan.2.1 c0 hc0mem hc0path
    rw [heq] at hb
    have hc0e : c0 = (1, 1) := by
      obtain ⟨a, b⟩ := c0
      unfold MazeGenerator.dist at hb
      dsimp only at hb hc0b
      simp only [Prod.mk.injEq]
      omega
    rw [hc0e] at hc0path
    have hpt := MazeGenerator.isPath_gives_pathTile _ tv _ hc0path
    dsimp only at hpt
    rw [sa] at hpt
    injection hpt with hbad
    exact absurd hbad (by decide)
  · have hoddE := (MazeGenerator.mem_oddCoords w h _).mp hmem
    rw [hE1] at hp1 hmem hdist hoddE
    refine ⟨⟨hoddE.1, hoddE.2.2.2.1⟩, hp1, ?_, ?_, ?_⟩
    · rw [MazeGenerator.gen_getTile w h choice hw hh, if_pos ⟨rfl, rfl⟩]
    · intro x y t hg htype
      rw [MazeGenerator.gen_getTile w h choice hw hh] at hg
      by_cases h1 : x = (MazeGenerator.mazeEnd w h choice).1 ∧
          y = (MazeGenerator.mazeEnd w h choice).2
      · rw [if_pos h1] at hg
        injection hg with hg
        rw [← hg] at htype
        cases htype
      · rw [if_neg h1] at hg
        have hgp : (MazeGenerator.preEndMap w h choice).getTile 0 x y
            = some pathTile := by
          rcases tv x y t hg with rfl | rfl | rfl
          · cases htype
          · cases htype
          · exact hg
        have hns : MazeGenerator.NonSolid (MazeGenerator.preEndMap w h choice) (x, y) := by
          rw [MazeGenerator.nonSolid_iff]
          exact ⟨pathTile, hgp, rfl⟩
        by_cases hodd : x % 2 = 1 ∧ y % 2 = 1
        · have hvis := (os x y hodd.1 hodd.2).mp hns
          rcases vp x y hvis with h11 | hint
          · exfalso
            rw [h11.1, h11.2] at hgp
            rw [sa] at hgp
            injection hgp with hbad
            exact absurd hbad (by decide)
          · have hxmem : ((x : Int), (y : Int)) ∈ MazeGenerator.oddCoords w h := by
              rw [MazeGenerator.mem_oddCoords]
              unfold MazeGenerator.interiorP at hint
              dsimp only at hint
              exact ⟨hodd.1, hint.1, hint.2.1, hodd.2, hint.2.2.1, hint.2.2.2⟩
            have hxpath : MazeGenerator.isPathAt
                (MazeGenerator.preEndMap w h choice) (x, y) = true := by
              unfold MazeGenerator.isPathAt
              dsimp only
              rw [hgp]
              rfl
            have hbound := hscan.2.1 (x, y) hxmem hxpath
            rw [hdist] at hbound
            exact hbound
        · obtain ⟨p, hpo1, hpo2, hpns, hpne, hpd⟩ := wd (x, y) hodd hns
          have hppt : (MazeGenerator.preEndMap w h choice).getTile 0 p.1 p.2
              = some pathTile := by
            rw [MazeGenerator.nonSolid_iff] at hpns
            obtain ⟨t2, hgp2, hst2⟩ := hpns
            rcases tv p.1 p.2 t2 hgp2 with rfl | rfl | rfl
            · exact absurd hst2 (by decide)
            · exfalso
              apply hpne
              have := so p.1 p.2 hgp2
              obtain ⟨a, b⟩ := p
              dsimp only at this
              rw [this.1, this.2]
            · exact hgp2
          have hppath : MazeGenerator.isPathAt
              (MazeGenerator.preEndMap w h choice) p = true := by
            unfold MazeGenerator.isPathAt
            rw [hppt]
            rfl
          have hpmem : p ∈ MazeGenerator.oddCoords w h := by
            have hpvis := (os p.1 p.2 hpo1 hpo2).mp (by
              rw [MazeGenerator.nonSolid_iff]
              exact ⟨pathTile, hppt, rfl⟩)
            rcases vp p.1 p.2 hpvis with h11 | hint
            · exfalso
              apply hpne
              obtain ⟨a, b⟩ := p
              dsimp only at h11
              rw [h11.1, h11.2]
            · rw [MazeGenerator.mem_oddCoords]
              unfold MazeGenerator.interiorP at hint
              exact ⟨hpo1, hint.1, hint.2.1, hpo2, hint.2.2.1, hint.2.2.2⟩
          have hbound := hscan.2.1 p hpmem hppath
          rw [hdist] at hbound
          exact le_trans hpd hbound
    · have hfind := hscan.2.2.2 hlt
      rw [hdist, hE1] at hfind
      exact hfind

set_option maxRecDepth 4000 in
/-- C4 witness: the amended theorem applied to the 5×5 maze with the constant
choice stream, whose odd sub-lattice does contain Path cells. -/
theorem maze_end_selection_witness :
    (∃ c ∈ MazeGenerator.oddCoords 5 5,
      MazeGenerator.isPathAt (MazeGenerator.preEndMap 5 5 (fun _ => 0)) c = true) ∧
    (((MazeGenerator.mazeEnd 5 5 (fun _ => 0)).1 % 2 = 1 ∧
      (MazeGenerator.mazeEnd 5 5 (fun _ => 0)).2 % 2 = 1) ∧
     MazeGenerator.isPathAt (MazeGenerator.preEndMap 5 5 (fun _ => 0))
       (MazeGenerator.mazeEnd 5 5 (fun _ => 0)) = true ∧
     (MazeGenerator.Gen.generate ⟨5, 5⟩ (fun _ => 0)).getTile 0
       (MazeGenerator.mazeEnd 5 5 (fun _ => 0)).1
       (MazeGenerator.mazeEnd 5 5 (fun _ => 0)).2 = some endTile ∧
     (∀ x y t, (MazeGenerator.Gen.generate ⟨5, 5⟩ (fun _ => 0)).getTile 0 x y = some t →
       t.type = TileType.PATH →
       MazeGenerator.dist (x, y) ≤
         MazeGenerator.dist (MazeGenerator.mazeEnd 5 5 (fun _ => 0))) ∧
     (MazeGenerator.oddCoords 5 5).find? (fun c =>
         MazeGenerator.isPathAt (MazeGenerator.preEndMap 5 5 (fun _ => 0)) c &&
         (MazeGenerator.dist c ==
           MazeGenerator.dist (MazeGenerator.mazeEnd 5 5 (fun _ => 0))))
       = some (MazeGenerator.mazeEnd 5 5 (fun _ => 0))) :=
  ⟨by with_unfolding_all decide,
   maze_end_selection 5 5 (fun _ => 0) (by with_unfolding_all decide)⟩

theorem list_get?_set_self {α : Type} :
    ∀ (l : List α) (n : ℕ) (a : α), n < l.length → (l.set n a).get? n = some a := by
  intro l
  induction l with
  | nil => intro n a hlt; simp at hlt
  | cons x xs ih =>
    intro n a hlt
    cases n with
    | zero => rfl
    | succ m =>
      simp only [List.set, List.get?]
      exact ih m a (by simpa using hlt)

/-- C10: when the carving produces no Path cell on the odd sub-lattice (for
example for widths and heights ≤ 3, where the only carved cell is the Start
cell), the end-selection scan never updates, so `generate` writes the End
tile at the start coordinates (1,1), overwriting the Start tile: the
returned map contains an End cell at (1,1) and no Start cell anywhere, and a
subsequent `restart` — whose scan looks for a Start tile — finds nothing and
leaves the player's position unchanged (it still resets health and score). -/
theorem degenerate_maze_overwrites_start (w h : Int) (choice : ℕ → ℕ)
    (hw : 2 ≤ w) (hh : 2 ≤ h)
    (hnp : ∀ c ∈ MazeGenerator.oddCoords w h,
      MazeGenerator.isPathAt (MazeGenerator.preEndMap w h choice) c = false) :
    MazeGenerator.mazeEnd w h choice = (1, 1) ∧
    (MazeGenerator.Gen.generate ⟨w, h⟩ choice).getTile 0 1 1 = some endTile ∧
    (∀ x y t, (MazeGenerator.Gen.generate ⟨w, h⟩ choice).getTile 0 x y = some t →
      t.type ≠ TileType.START) ∧
    (∀ (s : EngineState) (i : ℕ) (p : Entity),
      s.tileMap = some (MazeGenerator.Gen.generate ⟨w, h⟩ choice) →
      s.player = some i → s.entities.get? i = some p →
      ∃ p2, (GameEngine.restart s).entities.get? i = some p2 ∧
        p2.x = p.x ∧ p2.y = p.y ∧ p2.health = 100 ∧ p2.score = 0) := by
  obtain ⟨mw, mh, ml, vs, sv, vo, vp, sa, tv, so, os, ws, rc, wd, ce⟩ :=
    MazeGenerator.inv_carvedState w h choice hw hh
  have hpm : (MazeGenerator.carvedState w h choice).map =
      MazeGenerator.preEndMap w h choice := rfl
  rw [hpm] at mw mh ml sa tv so os ws rc wd ce
  have hfold := MazeGenerator.scan_no_update (MazeGenerator.preEndMap w h choice)
    (MazeGenerator.oddCoords w h) ((1, 1), 0) hnp
  have hend : MazeGenerator.mazeEnd w h choice = (1, 1) := by
    have hb : MazeGenerator.mazeEnd w h choice =
        ((MazeGenerator.oddCoords w h).foldl
          (MazeGenerator.scanStep (MazeGenerator.preEndMap w h choice)) ((1, 1), 0)).1 :=
      rfl
    rw [hb, hfold]
  have hgetg := MazeGenerator.gen_getTile w h choice hw hh
  have hg11 : (MazeGenerator.Gen.generate ⟨w, h⟩ choice).getTile 0 1 1
      = some endTile := by
    rw [hgetg, hend, if_pos ⟨rfl, rfl⟩]
  have hnostart : ∀ x y t,
      (MazeGenerator.Gen.generate ⟨w, h⟩ choice).getTile 0 x y = some t →
      t.type ≠ TileType.START := by
    intro x y t hg
    rw [hgetg, hend] at hg
    by_cases h1 : x = ((1 : Int), (1 : Int)).1 ∧ y = ((1 : Int), (1 : Int)).2
    · rw [if_pos h1] at hg
      injection hg with hg
      rw [← hg]
      decide
    · rw [if_neg h1] at hg
      rcases tv x y t hg with rfl | rfl | rfl
      · decide
      · exact absurd (so x y hg) h1
      · decide
  refine ⟨hend, hg11, hnostart, ?_⟩
  intro s i p htm hpi hpe
  obtain ⟨tmO, es, pl, st2⟩ := s
  simp only at htm hpi hpe
  subst htm
  subst hpi
  have hilt : i < es.length := by
    by_contra hge
    rw [List.get?_eq_none.mpr (by omega)] at hpe
    cases hpe
  have hset : ∀ q : Entity, (es.set i q).get? i = some q :=
    fun q => list_get?_set_self es i q hilt
  refine ⟨{ p with health := 100, score := 0 }, ?_, rfl, rfl, rfl, rfl⟩
  show ((GameEngine.restart
      ⟨some (MazeGenerator.Gen.generate ⟨w, h⟩ choice), es, some i, st2⟩).entities).get? i
      = _
  simp only [GameEngine.restart, hpe]
  rw [hset]
  refine congrArg some (List.foldl_fixed' ?_ _)
  intro y
  simp only
  split
  · next x heq =>
    exfalso
    have hx := List.find?_some heq
    cases hgt : (MazeGenerator.Gen.generate ⟨w, h⟩ choice).getTile 0 x y with
    | none => rw [hgt] at hx; simp at hx
    | some t => rw [hgt] at hx; exact hnostart _ _ t hgt (of_decide_eq_true hx)
  · rfl

/-- A concrete player entity and engine state over the degenerate 3×3 maze,
used to instantiate the degenerate-maze theorem. -/
def degPlayer : Entity :=
  ⟨"player", 77, 88, 24, 24, 0, 0, true, true, ["player"], 55, 7, 150, true⟩

def degState : EngineState :=
  ⟨some (MazeGenerator.Gen.generate ⟨3, 3⟩ (fun _ => 0)), [degPlayer], some 0,
    restartGameState⟩

set_option maxRecDepth 4000 in
/-- Witness for C10 at the concrete size 3×3: the only odd interior cell is
the Start cell, so no Path cell exists, the End lands on (1,1), and restart
leaves the concrete player at (77, 88) while resetting health and score. -/
theorem degenerate_maze_overwrites_start_witness :
    ((2 : Int) ≤ 3 ∧
      ∀ c ∈ MazeGenerator.oddCoords 3 3,
        MazeGenerator.isPathAt (MazeGenerator.preEndMap 3 3 (fun _ => 0)) c = false) ∧
    MazeGenerator.mazeEnd 3 3 (fun _ => 0) = (1, 1) ∧
    (MazeGenerator.Gen.generate ⟨3, 3⟩ (fun _ => 0)).getTile 0 1 1 = some endTile ∧
    (∃ p2, (GameEngine.restart degState).entities.get? 0 = some p2 ∧
      p2.x = degPlayer.x ∧ p2.y = degPlayer.y ∧ p2.health = 100 ∧ p2.score = 0) := by
  have hnp : ∀ c ∈ MazeGenerator.oddCoords 3 3,
      MazeGenerator.isPathAt (MazeGenerator.preEndMap 3 3 (fun _ => 0)) c = false := by
    with_unfolding_all decide
  obtain ⟨h1, h2, h3, h4⟩ :=
    degenerate_maze_overwrites_start 3 3 (fun _ => 0) (by decide) (by decide) hnp
  exact ⟨⟨by decide, hnp⟩, h1, h2, h4 degState 0 degPlayer rfl rfl rfl⟩
